/-
  Verification of the retrieval & research core of the Re-ReSearch repository.

  Strings are modelled as `List Char`.  Python string operations used by the
  source (str.strip, str.split, str.find, " ".join, regular-expression token
  scanning) are embedded as executable Lean functions in namespace `PyStr`.

  Components covered:
  * `Chunker`      — src/backend/rag/chunker.py        (_recursive_split, chunk_text)
  * `FtsQuery`     — src/backend/db/search.py          (_sanitize_fts_query)
  * `Hybrid`       — src/backend/db/search.py          (hybrid_search / RRF fusion)
  * `GraphStore`   — src/backend/db/nodes.py, edges.py (update_node, delete_node,
                     connect_nodes; SQLite schema constraints modelled from the
                     specification where schema.sql is not part of src/)
  * `Chain`        — src/backend/agent/search_providers.py (SearchProviderChain)
  * `AgentEval`    — src/backend/agent/nodes.py, graph.py (evaluator, routing)
-/

import Mathlib

namespace PyStr

/-- ASCII whitespace recognised by Python's `str.strip` / `str.split()`:
space, tab, newline, carriage return, vertical tab, form feed.
(Unicode whitespace beyond ASCII is outside the modelled alphabet.) -/
def pyWS (c : Char) : Bool :=
  c = ' ' || c = '\t' || c = '\n' || c = '\r' || c = Char.ofNat 11 || c = Char.ofNat 12

/-- Python `str.strip()`: drop leading and trailing whitespace. -/
def strip (l : List Char) : List Char :=
  (l.dropWhile pyWS).rdropWhile pyWS

/-- Python `text.split(sep)` for a single-character separator `sep`
(used by the source with `sep = " "` and `sep = "\n"`).  Always returns a
non-empty list of parts; empty parts mark adjacent separators. -/
def splitChar (sep : Char) : List Char → List (List Char)
  | [] => [[]]
  | c :: rest =>
    match splitChar sep rest with
    | [] => []
    | part :: parts =>
      if c = sep then [] :: part :: parts else (c :: part) :: parts

/-- Python `text.split("\n\n")`: split on the two-character separator,
leftmost non-overlapping occurrences. -/
def splitNN : List Char → List (List Char)
  | [] => [[]]
  | [c] => [[c]]
  | c1 :: c2 :: rest =>
    if c1 = '\n' ∧ c2 = '\n' then [] :: splitNN rest
    else
      match splitNN (c2 :: rest) with
      | [] => []
      | part :: parts => (c1 :: part) :: parts

/-- Python `"\n\n" in text`. -/
def containsNN : List Char → Bool
  | [] => false
  | [_] => false
  | c1 :: c2 :: rest => (c1 = '\n' && c2 = '\n') || containsNN (c2 :: rest)

/-- Python `" ".join(parts)`. -/
def joinSpace : List (List Char) → List Char
  | [] => []
  | [x] => x
  | x :: xs => x ++ ' ' :: joinSpace xs

/-- Generic maximal-run scanner: collect the maximal runs of consecutive
characters satisfying `p`, in order.  `acc` holds the (reversed) run being
built.  Instantiated with non-whitespace for Python `str.split()` tokens and
with alphanumerics for the regex `[A-Za-z0-9]{3,}` of `_sanitize_fts_query`. -/
def runsGo (p : Char → Bool) : List Char → List Char → List (List Char)
  | [], acc => if acc = [] then [] else [acc.reverse]
  | c :: rest, acc =>
    if p c then runsGo p rest (c :: acc)
    else if acc = [] then runsGo p rest [] else acc.reverse :: runsGo p rest []

/-- The maximal runs of `p`-characters in `l`. -/
def runs (p : Char → Bool) (l : List Char) : List (List Char) := runsGo p l []

/-- Python `text.split()` with no argument: the whitespace-delimited tokens. -/
def tokens (l : List Char) : List (List Char) := runs (fun c => !pyWS c) l

/-- Python `chunk.find(" ", cut)`: index of the first space at position
`≥ cut`, or `none`. -/
def findSpaceFrom (chunk : List Char) (cut : Nat) : Option Nat :=
  match (chunk.drop cut).findIdx? (fun c => c = ' ') with
  | some j => some (cut + j)
  | none => none

/- ------------------------------------------------------------------ -/
/- Lemmas about the Python string embedding                            -/
/- ------------------------------------------------------------------ -/

theorem mem_dropWhile_of_mem {p : Char → Bool} {c : Char} {l : List Char}
    (hc : c ∈ l) (hp : ¬ p c = true) : c ∈ l.dropWhile p := by
  have hsplit : l.takeWhile p ++ l.dropWhile p = l := List.takeWhile_append_dropWhile p l
  rw [← hsplit] at hc
  rcases List.mem_append.mp hc with h | h
  · exact absurd (List.mem_takeWhile_imp h) hp
  · exact h

theorem mem_strip_of_mem {c : Char} {l : List Char}
    (hc : c ∈ l) (hp : ¬ pyWS c = true) : c ∈ strip l := by
  have h1 : c ∈ l.dropWhile pyWS := mem_dropWhile_of_mem hc hp
  rw [strip, List.rdropWhile, List.mem_reverse]
  exact mem_dropWhile_of_mem (List.mem_reverse.mpr h1) hp

/-- A list containing a non-whitespace character does not strip to empty. -/
theorem strip_ne_nil {c : Char} {l : List Char}
    (hc : c ∈ l) (hp : ¬ pyWS c = true) : strip l ≠ [] := by
  intro h
  have := mem_strip_of_mem hc hp
  rw [h] at this
  exact absurd this (by simp)

theorem dropWhile_eq_self_of_all {p : Char → Bool} {l : List Char}
    (h : ∀ c ∈ l, ¬ p c = true) : l.dropWhile p = l := by
  cases l with
  | nil => rfl
  | cons c rest =>
    rw [List.dropWhile_cons]
    simp [h c (by simp)]

/-- Stripping a whitespace-free list is the identity. -/
theorem strip_eq_self_of_all {l : List Char}
    (h : ∀ c ∈ l, ¬ pyWS c = true) : strip l = l := by
  unfold strip List.rdropWhile
  rw [dropWhile_eq_self_of_all h]
  rw [dropWhile_eq_self_of_all (by intro c hc; exact h c (List.mem_reverse.mp hc))]
  exact List.reverse_reverse l

theorem containsNN_mem {l : List Char} (h : containsNN l = true) : '\n' ∈ l := by
  induction l with
  | nil => simp [containsNN] at h
  | cons c rest ih =>
    cases rest with
    | nil => simp [containsNN] at h
    | cons c2 rest2 =>
      rw [containsNN] at h
      rcases Bool.or_eq_true_iff.mp h with h1 | h2
      · have : c = '\n' := by
          have := Bool.and_eq_true_iff.mp h1
          exact of_decide_eq_true this.1
        simp [this]
      · exact List.mem_cons_of_mem _ (ih h2)

/-- Characters of any part of `splitChar sep l` are characters of `l`. -/
theorem splitChar_part_subset {sep : Char} {l : List Char} :
    ∀ part ∈ splitChar sep l, ∀ c ∈ part, c ∈ l := by
  induction l with
  | nil =>
    intro part hpart c hc
    simp [splitChar] at hpart
    subst hpart
    simp at hc
  | cons x rest ih =>
    intro part hpart c hc
    rw [splitChar] at hpart
    cases hrec : splitChar sep rest with
    | nil =>
      rw [hrec] at hpart
      simp at hpart
    | cons p0 ps =>
      rw [hrec] at hpart
      by_cases hx : x = sep
      · simp only [hx, if_pos rfl] at hpart
        rcases List.mem_cons.mp hpart with h | h
        · subst h; simp at hc
        · exact List.mem_cons_of_mem _ (ih part (hrec ▸ h) c hc)
      · simp only [if_neg hx] at hpart
        rcases List.mem_cons.mp hpart with h | h
        · subst h
          rcases List.mem_cons.mp hc with h | h
          · simp [h]
          · exact List.mem_cons_of_mem _ (ih p0 (by rw [hrec]; exact List.mem_cons_self _ _) c h)
        · exact List.mem_cons_of_mem _ (ih part (by rw [hrec]; exact List.mem_cons_of_mem _ h) c hc)

/-- No part of `splitChar sep l` contains the separator. -/
theorem splitChar_part_no_sep {sep : Char} {l : List Char} :
    ∀ part ∈ splitChar sep l, sep ∉ part := by
  induction l with
  | nil =>
    intro part hpart
    simp [splitChar] at hpart
    subst hpart
    simp
  | cons x rest ih =>
    intro part hpart
    rw [splitChar] at hpart
    cases hrec : splitChar sep rest with
    | nil => rw [hrec] at hpart; simp at hpart
    | cons p0 ps =>
      rw [hrec] at hpart
      by_cases hx : x = sep
      · simp only [hx, if_pos rfl] at hpart
        rcases List.mem_cons.mp hpart with h | h
        · subst h; simp
        · exact ih part (hrec ▸ h)
      · simp only [if_neg hx] at hpart
        rcases List.mem_cons.mp hpart with h | h
        · subst h
          intro hmem
          rcases List.mem_cons.mp hmem with h | h
          · exact hx h.symm
          · exact ih p0 (by rw [hrec]; exact List.mem_cons_self _ _) h
        · exact ih part (by rw [hrec]; exact List.mem_cons_of_mem _ h)

theorem splitChar_ne_nil (sep : Char) (l : List Char) : splitChar sep l ≠ [] := by
  induction l with
  | nil => simp [splitChar]
  | cons c rest ih =>
    rw [splitChar]
    cases h : splitChar sep rest with
    | nil => exact absurd h ih
    | cons part parts => by_cases hc : c = sep <;> simp [hc]

/-- Every token emitted by the run scanner is non-empty. -/
theorem runsGo_mem_ne_nil {p : Char → Bool} {l acc : List Char} :
    ∀ t ∈ runsGo p l acc, t ≠ [] := by
  induction l generalizing acc with
  | nil =>
    intro t ht
    by_cases hacc : acc = []
    · simp [runsGo, hacc] at ht
    · simp only [runsGo, if_neg hacc, List.mem_singleton] at ht
      subst ht
      simpa using hacc
  | cons c rest ih =>
    intro t ht
    rw [runsGo] at ht
    cases hp : p c with
    | true => exact ih t (by simpa [hp] using ht)
    | false =>
      by_cases hacc : acc = []
      · exact ih t (by simpa [hp, hacc] using ht)
      · simp only [hp, Bool.false_eq_true, if_false, if_neg hacc, List.mem_cons] at ht
        rcases ht with h | h
        · subst h; simpa using hacc
        · exact ih t h

/-- Every character of every token satisfies the scanned predicate. -/
theorem runsGo_mem_all {p : Char → Bool} {l acc : List Char}
    (hacc : ∀ c ∈ acc, p c = true) :
    ∀ t ∈ runsGo p l acc, ∀ c ∈ t, p c = true := by
  induction l generalizing acc with
  | nil =>
    intro t ht c hc
    by_cases h : acc = []
    · simp [runsGo, h] at ht
    · simp only [runsGo, if_neg h, List.mem_singleton] at ht
      subst ht
      exact hacc c (List.mem_reverse.mp hc)
  | cons x rest ih =>
    intro t ht c hc
    rw [runsGo] at ht
    cases hp : p x with
    | true =>
      refine @ih (x :: acc) ?_ t (by simpa [hp] using ht) c hc
      intro d hd
      rcases List.mem_cons.mp hd with h | h
      · subst h; exact hp
      · exact hacc d h
    | false =>
      by_cases h : acc = []
      · exact ih (fun d hd => absurd hd (List.not_mem_nil d)) t (by simpa [hp, h] using ht) c hc
      · simp only [hp, Bool.false_eq_true, if_false, if_neg h, List.mem_cons] at ht
        rcases ht with ht | ht
        · subst ht; exact hacc c (List.mem_reverse.mp hc)
        · exact ih (fun d hd => absurd hd (List.not_mem_nil d)) t ht c hc

/-- Every token is a contiguous substring of the scanned text. -/
theorem runsGo_mem_infix {p : Char → Bool} {l acc : List Char} :
    ∀ t ∈ runsGo p l acc, t <:+: (acc.reverse ++ l) := by
  induction l generalizing acc with
  | nil =>
    intro t ht
    by_cases h : acc = []
    · simp [runsGo, h] at ht
    · simp only [runsGo, if_neg h, List.mem_singleton] at ht
      subst ht
      simp
  | cons x rest ih =>
    intro t ht
    rw [runsGo] at ht
    cases hp : p x with
    | true =>
      have := @ih (x :: acc) t (by simpa [hp] using ht)
      simpa using this
    | false =>
      by_cases h : acc = []
      · have := @ih [] t (by simpa [hp, h] using ht)
        refine this.trans ?_
        exact ⟨acc.reverse ++ [x], [], by simp⟩
      · simp only [hp, Bool.false_eq_true, if_false, if_neg h, List.mem_cons] at ht
        rcases ht with ht | ht
        · subst ht
          exact ⟨[], x :: rest, by simp⟩
        · have := @ih [] t (by simpa using ht)
          refine this.trans ?_
          exact ⟨acc.reverse ++ [x], [], by simp⟩

/-- On an all-`p` text the scanner returns the single pending run. -/
theorem runsGo_all {p : Char → Bool} {l acc : List Char}
    (h : ∀ c ∈ l, p c = true) :
    runsGo p l acc = if acc.reverse ++ l = [] then [] else [acc.reverse ++ l] := by
  induction l generalizing acc with
  | nil => by_cases hacc : acc = [] <;> simp [runsGo, hacc]
  | cons x rest ih =>
    rw [runsGo, if_pos (h x (by simp))]
    rw [ih (fun c hc => h c (List.mem_cons_of_mem _ hc))]
    simp

/-- A whitespace-free non-empty text is its own sole token. -/
theorem tokens_all_nonWS {l : List Char}
    (h : ∀ c ∈ l, ¬ pyWS c = true) (hne : l ≠ []) : tokens l = [l] := by
  rw [tokens, runs, runsGo_all (by intro c hc; simpa using h c hc)]
  simp [hne]

/-- On all-whitespace text the scanner only flushes the pending run. -/
theorem runsGo_ws_all {w acc : List Char} (hw : ∀ c ∈ w, pyWS c = true) :
    runsGo (fun c => !pyWS c) w acc = if acc = [] then [] else [acc.reverse] := by
  induction w generalizing acc with
  | nil => rw [runsGo]
  | cons x rest ihw =>
    have hx : pyWS x = true := hw x (by simp)
    have hrest : ∀ c ∈ rest, pyWS c = true := fun c hc => hw c (List.mem_cons_of_mem _ hc)
    rw [runsGo, if_neg (by simp [hx])]
    by_cases hacc : acc = []
    · rw [if_pos hacc, ihw hrest, if_pos hacc]
      simp
    · rw [if_neg hacc, ihw hrest, if_neg hacc]
      simp

/-- Scanning ignores trailing whitespace. -/
theorem runsGo_append_ws {w l acc : List Char}
    (hw : ∀ c ∈ w, pyWS c = true) :
    runsGo (fun c => !pyWS c) (l ++ w) acc = runsGo (fun c => !pyWS c) l acc := by
  induction l generalizing acc with
  | nil =>
    rw [List.nil_append, runsGo_ws_all hw]
    rw [runsGo]
  | cons x rest ih =>
    rw [List.cons_append, runsGo, runsGo]
    cases hp : pyWS x with
    | true =>
      by_cases hacc : acc = [] <;> simp [hp, hacc, ih]
    | false => simp [hp, ih]

/-- Scanning ignores leading whitespace. -/
theorem runsGo_dropWhile_ws (l : List Char) :
    runsGo (fun c => !pyWS c) (l.dropWhile pyWS) [] = runsGo (fun c => !pyWS c) l [] := by
  induction l with
  | nil => rfl
  | cons x rest ih =>
    by_cases hp : pyWS x
    · rw [List.dropWhile_cons, if_pos hp, ih]
      rw [runsGo, if_neg (by simp [hp]), if_pos rfl]
    · rw [List.dropWhile_cons, if_neg hp]

theorem rdropWhile_append_rtakeWhile (p : Char → Bool) (l : List Char) :
    l.rdropWhile p ++ l.rtakeWhile p = l := by
  rw [List.rdropWhile, List.rtakeWhile, ← List.reverse_append,
    List.takeWhile_append_dropWhile, List.reverse_reverse]

/-- Helper for relating the run scanner to `splitChar`: the pending run `pre`
is glued onto the first part; empty parts are discarded. -/
def emitFirst (pre : List Char) (parts : List (List Char)) : List (List Char) :=
  match parts with
  | [] => if pre = [] then [] else [pre]
  | part :: rest =>
    (if pre ++ part = [] then [] else [pre ++ part]) ++ rest.filter (fun q => !q.isEmpty)

/-- On text whose only whitespace is the space character, the whitespace run
scanner agrees with splitting on single spaces and discarding empty parts. -/
theorem runsGo_eq_splitChar {l acc : List Char}
    (hl : ∀ c ∈ l, pyWS c = true → c = ' ')
    (hacc : ∀ c ∈ acc, ¬ pyWS c = true) :
    runsGo (fun c => !pyWS c) l acc = emitFirst acc.reverse (splitChar ' ' l) := by
  induction l generalizing acc with
  | nil =>
    rw [runsGo]
    show _ = emitFirst acc.reverse [[]]
    rw [emitFirst]
    by_cases hacc2 : acc = [] <;> simp [hacc2]
  | cons c rest ih =>
    have hrest : ∀ c ∈ rest, pyWS c = true → c = ' ' :=
      fun d hd => hl d (List.mem_cons_of_mem _ hd)
    rw [runsGo]
    cases hsp : splitChar ' ' rest with
    | nil => exact absurd hsp (splitChar_ne_nil ' ' rest)
    | cons p0 ps =>
      by_cases hc : c = ' '
      · have hws : pyWS c = true := by subst hc; rfl
        rw [if_neg (by simp [hws])]
        have hbase : runsGo (fun c => !pyWS c) rest [] =
            (if p0 = [] then [] else [p0]) ++ ps.filter (fun q => !q.isEmpty) := by
          rw [ih hrest (by intro d hd; exact absurd hd (List.not_mem_nil d))]
          rw [hsp, emitFirst]
          simp
        have hsplit : splitChar ' ' (c :: rest) = [] :: p0 :: ps := by
          rw [splitChar, hsp]
          simp [hc]
        rw [hsplit, emitFirst]
        have hfil : (if p0 = [] then [] else [p0]) ++ List.filter (fun q => !q.isEmpty) ps =
            List.filter (fun q => !q.isEmpty) (p0 :: ps) := by
          by_cases hp0 : p0 = []
          · subst hp0; simp [List.filter]
          · have hE : p0.isEmpty = false := by
              cases p0 with
              | nil => exact absurd rfl hp0
              | cons a as => rfl
            simp [hp0, hE, List.filter]
        by_cases hacc2 : acc = []
        · rw [if_pos hacc2, hbase, hacc2, hfil]
          simp
        · rw [if_neg hacc2, hbase]
          have : ¬ (acc.reverse ++ ([] : List Char) = []) := by simpa using hacc2
          rw [if_neg this, hfil]
          simp
      · have hws : ¬ pyWS c = true := fun h => hc (hl c (by simp) h)
        rw [if_pos (by simp [Bool.not_eq_true] at hws ⊢; exact hws)]
        have hsplit : splitChar ' ' (c :: rest) = (c :: p0) :: ps := by
          rw [splitChar, hsp]
          simp [hc]
        rw [hsplit, emitFirst]
        rw [ih hrest (by
          intro d hd
          rcases List.mem_cons.mp hd with h | h
          · subst h; exact hws
          · exact hacc d h)]
        rw [hsp, emitFirst]
        have h1 : (c :: acc).reverse ++ p0 = acc.reverse ++ (c :: p0) := by simp
        have h2 : ¬ ((c :: acc).reverse ++ p0 = []) := by simp
        have h3 : ¬ (acc.reverse ++ (c :: p0) = []) := by simp
        rw [if_neg h2, if_neg h3, h1]

/-- On space-only-whitespace text, Python `text.split()` equals
`text.split(" ")` with empty parts dropped. -/
theorem tokens_eq_splitChar {l : List Char}
    (hl : ∀ c ∈ l, pyWS c = true → c = ' ') :
    tokens l = (splitChar ' ' l).filter (fun part => !part.isEmpty) := by
  rw [tokens, runs, runsGo_eq_splitChar hl (by intro d hd; exact absurd hd (List.not_mem_nil d))]
  cases hsp : splitChar ' ' l with
  | nil => exact absurd hsp (splitChar_ne_nil ' ' l)
  | cons p0 ps =>
    rw [emitFirst]
    by_cases hp0 : p0 = []
    · subst hp0; simp [List.filter]
    · have hE : p0.isEmpty = false := by
        cases p0 with
        | nil => exact absurd rfl hp0
        | cons a as => rfl
      simp [hp0, hE, List.filter]

/-- Tokenisation is invariant under `strip`. -/
theorem tokens_strip (l : List Char) : tokens (strip l) = tokens l := by
  rw [strip]
  have h1 : tokens ((l.dropWhile pyWS).rdropWhile pyWS) = tokens (l.dropWhile pyWS) := by
    conv_rhs => rw [← rdropWhile_append_rtakeWhile pyWS (l.dropWhile pyWS)]
    rw [tokens, tokens, runs, runs]
    exact (runsGo_append_ws (fun c hc => List.mem_rtakeWhile_imp hc)).symm
  rw [h1, tokens, tokens, runs, runs, runsGo_dropWhile_ws]

end PyStr

/-
  src/backend/rag/chunker.py — the text chunker of the RAG ingestion
  pipeline: `_recursive_split` and `chunk_text`.
-/

namespace Chunker

open PyStr

/-- The separator hierarchy used by `chunk_text`: `["\n\n", "\n", " "]`.
The source passes these as plain strings; they are the only separators the
module ever uses. -/
inductive Sep where
  | paragraph   -- "\n\n"
  | newline     -- "\n"
  | space       -- " "
deriving DecidableEq

/-- Python `sep in text` for the three separators. -/
def containsSep : Sep → List Char → Bool
  | .paragraph, l => containsNN l
  | .newline, l => l.contains '\n'
  | .space, l => l.contains ' '

/-- Python `text.split(sep)` for the three separators. -/
def splitSep : Sep → List Char → List (List Char)
  | .paragraph, l => splitNN l
  | .newline, l => splitChar '\n' l
  | .space, l => splitChar ' ' l

/-- The hard character-boundary cut of `_recursive_split`:
`[text[i : i + chunk_size] for i in range(0, len(text), chunk_size) if text[i : i + chunk_size].strip()]`.
`fuel` bounds the recursion (call with `fuel = text.length`); Python raises
`ValueError` on `chunk_size = 0`, which is modelled by returning `[]`
(that case is unreachable from `chunk_text` with positive sizes). -/
def hardCutGo (size : Nat) : Nat → List Char → List (List Char)
  | _, [] => []
  | 0, _ => []
  | fuel + 1, text =>
    if strip (text.take size) = [] then hardCutGo size fuel (text.drop size)
    else text.take size :: hardCutGo size fuel (text.drop size)

def hardCut (size : Nat) (text : List Char) : List (List Char) :=
  if size = 0 then [] else hardCutGo size text.length text

/-- `_recursive_split(text, separators, chunk_size)` from chunker.py:
split into pieces of at most `chunk_size` characters, trying the separators
in order and falling back to a hard character cut. -/
def recursiveSplit (size : Nat) : List Sep → List Char → List (List Char)
  | seps, text =>
    if text.length ≤ size then
      if strip text = [] then [] else [text]
    else
      match seps with
      | [] => hardCut size text
      | sep :: rest =>
        if containsSep sep text then
          (splitSep sep text).flatMap (fun part =>
            let stripped := strip part
            if stripped = [] then []
            else if stripped.length ≤ size then [stripped]
            else recursiveSplit size rest stripped)
        else recursiveSplit size rest text

/-- One step of the greedy merge loop of `chunk_text`: state is the emitted
`chunks` and the current buffer `buf`; processes the remaining `pieces`. -/
def mergeLoop (size overlap : Nat) :
    List (List Char) → List (List Char) → List (List Char) → List (List Char)
  | chunks, buf, [] =>
    if buf = [] then chunks else chunks ++ [joinSpace buf]
  | chunks, buf, piece :: rest =>
    let tentative := joinSpace (buf ++ [piece])
    if size < tentative.length ∧ buf ≠ [] then
      let chunk := joinSpace buf
      let overlapText :=
        if overlap < chunk.length then
          let cut := chunk.length - overlap
          match findSpaceFrom chunk cut with
          | some spaceIdx => chunk.drop (spaceIdx + 1)
          | none => chunk.drop cut
        else chunk
      let newBuf := if strip overlapText = [] then [] else [overlapText]
      mergeLoop size overlap (chunks ++ [chunk]) (newBuf ++ [piece]) rest
    else
      mergeLoop size overlap chunks (buf ++ [piece]) rest

/-- `chunk_text(text, chunk_size, overlap)` from chunker.py. -/
def chunk_text (text : List Char) (chunk_size : Nat) (overlap : Nat) : List (List Char) :=
  if strip text = [] then []
  else
    let pieces := recursiveSplit chunk_size [Sep.paragraph, Sep.newline, Sep.space] (strip text)
    (mergeLoop chunk_size overlap [] [] pieces).filter (fun c => !(strip c).isEmpty)

/- ------------------------------------------------------------------ -/
/- Lemmas about the chunker                                            -/
/- ------------------------------------------------------------------ -/

theorem joinSpace_cons_cons (x y : List Char) (ys : List (List Char)) :
    joinSpace (x :: y :: ys) = x ++ ' ' :: joinSpace (y :: ys) := rfl

/-- Every buffer entry is a contiguous substring of the joined buffer. -/
theorem mem_joinSpace_infix {x : List Char} {buf : List (List Char)}
    (hx : x ∈ buf) : x <:+: joinSpace buf := by
  induction buf with
  | nil => simp at hx
  | cons b bs ih =>
    cases bs with
    | nil =>
      rcases List.mem_cons.mp hx with h | h
      · subst h; rw [joinSpace]
      · simp at h
    | cons b2 bs2 =>
      rw [joinSpace_cons_cons]
      rcases List.mem_cons.mp hx with h | h
      · subst h
        exact ⟨[], ' ' :: joinSpace (b2 :: bs2), by simp⟩
      · have h1 := ih h
        rcases h1 with ⟨s, t, hst⟩
        exact ⟨b ++ ' ' :: s, t, by simp [← hst]⟩

/-- Already-emitted chunks survive the rest of the merge loop. -/
theorem mergeLoop_mem_chunks {size overlap : Nat} :
    ∀ (ps chunks buf : List (List Char)), ∀ c ∈ chunks,
      c ∈ mergeLoop size overlap chunks buf ps := by
  intro ps
  induction ps with
  | nil =>
    intro chunks buf c hc
    rw [mergeLoop]
    by_cases hbuf : buf = [] <;> simp [hbuf, hc]
  | cons p rest ih =>
    intro chunks buf c hc
    rw [mergeLoop]
    by_cases hcond : size < (joinSpace (buf ++ [p])).length ∧ buf ≠ []
    · rw [if_pos hcond]
      exact ih _ _ c (List.mem_append_left _ hc)
    · rw [if_neg hcond]
      exact ih _ _ c hc

/-- Every buffer entry ends up inside some chunk of the merge loop output. -/
theorem mergeLoop_buf {size overlap : Nat} :
    ∀ (ps chunks buf : List (List Char)), ∀ x ∈ buf,
      ∃ c ∈ mergeLoop size overlap chunks buf ps, x <:+: c := by
  intro ps
  induction ps with
  | nil =>
    intro chunks buf x hx
    have hbuf : buf ≠ [] := fun h => by simp [h] at hx
    rw [mergeLoop, if_neg hbuf]
    exact ⟨joinSpace buf, List.mem_append_right _ (by simp), mem_joinSpace_infix hx⟩
  | cons p rest ih =>
    intro chunks buf x hx
    rw [mergeLoop]
    by_cases hcond : size < (joinSpace (buf ++ [p])).length ∧ buf ≠ []
    · rw [if_pos hcond]
      refine ⟨joinSpace buf, ?_, mem_joinSpace_infix hx⟩
      exact mergeLoop_mem_chunks _ _ _ _ (List.mem_append_right _ (by simp))
    · rw [if_neg hcond]
      exact ih _ _ x (List.mem_append_left _ hx)

/-- Every piece fed to the merge loop ends up inside some output chunk. -/
theorem mergeLoop_piece {size overlap : Nat} :
    ∀ (ps chunks buf : List (List Char)), ∀ p ∈ ps,
      ∃ c ∈ mergeLoop size overlap chunks buf ps, p <:+: c := by
  intro ps
  induction ps with
  | nil => intro chunks buf p hp; simp at hp
  | cons q rest ih =>
    intro chunks buf p hp
    rw [mergeLoop]
    by_cases hcond : size < (joinSpace (buf ++ [q])).length ∧ buf ≠ []
    · rw [if_pos hcond]
      rcases List.mem_cons.mp hp with h | h
      · subst h
        exact mergeLoop_buf _ _ _ p (List.mem_append_right _ (by simp))
      · exact ih _ _ p h
    · rw [if_neg hcond]
      rcases List.mem_cons.mp hp with h | h
      · subst h
        exact mergeLoop_buf _ _ _ p (List.mem_append_right _ (by simp))
      · exact ih _ _ p h

/-- Under space-only whitespace, every token of `T` no longer than `size`
is contained in some piece of the recursive split. -/
theorem recursiveSplit_tokens {size : Nat} {T : List Char}
    (hsp : ∀ c ∈ T, pyWS c = true → c = ' ') :
    ∀ t ∈ tokens T, t.length ≤ size →
      ∃ p ∈ recursiveSplit size [Sep.paragraph, Sep.newline, Sep.space] T, t <:+: p := by
  intro t ht hlent
  have htne : t ≠ [] := runsGo_mem_ne_nil t ht
  have htall : ∀ c ∈ t, ¬ pyWS c = true := by
    intro c hc
    have := runsGo_mem_all (p := fun c => !pyWS c)
      (fun d hd => absurd hd (List.not_mem_nil d)) t ht c hc
    simpa using this
  have htinf : t <:+: T := by simpa using runsGo_mem_infix t ht
  obtain ⟨c0, hc0⟩ : ∃ c0, c0 ∈ t := by
    cases t with
    | nil => exact absurd rfl htne
    | cons a as => exact ⟨a, by simp⟩
  have hc0T : c0 ∈ T := htinf.subset hc0
  have hc0ws : ¬ pyWS c0 = true := htall c0 hc0
  have hstrip : strip T ≠ [] := strip_ne_nil hc0T hc0ws
  have hnoNL : '\n' ∉ T := by
    intro hmem
    have := hsp '\n' hmem (by rfl)
    exact absurd this (by decide)
  by_cases hlen : T.length ≤ size
  · rw [recursiveSplit, if_pos hlen, if_neg hstrip]
    exact ⟨T, by simp, htinf⟩
  · have hP : containsSep Sep.paragraph T = false := by
      rw [containsSep]
      cases h : containsNN T with
      | false => rfl
      | true => exact absurd (containsNN_mem h) hnoNL
    have hN : containsSep Sep.newline T = false := by
      rw [containsSep]
      cases h : T.contains '\n' with
      | false => rfl
      | true => exact absurd (by simpa using h) hnoNL
    rw [recursiveSplit, if_neg hlen]
    simp only [hP, Bool.false_eq_true, if_false]
    rw [recursiveSplit, if_neg hlen]
    simp only [hN, Bool.false_eq_true, if_false]
    rw [recursiveSplit, if_neg hlen]
    cases hS : containsSep Sep.space T with
    | true =>
      simp only [if_pos rfl]
      have hts : tokens T = (splitChar ' ' T).filter (fun part => !part.isEmpty) :=
        tokens_eq_splitChar hsp
      rw [hts] at ht
      have htpart : t ∈ splitChar ' ' T := List.mem_of_mem_filter ht
      have htstrip : strip t = t := strip_eq_self_of_all htall
      refine ⟨t, ?_, List.infix_refl t⟩
      rw [splitSep]
      refine List.mem_flatMap.mpr ⟨t, htpart, ?_⟩
      simp only [htstrip, if_neg htne, if_pos hlent]
      simp
    | false =>
      have hnoSP : ' ' ∉ T := by
        rw [containsSep] at hS
        simpa using hS
      have hallnw : ∀ c ∈ T, ¬ pyWS c = true := by
        intro c hc hws
        exact hnoSP ((hsp c hc hws) ▸ hc)
      have hTne : T ≠ [] := by
        intro h
        rw [h] at hlen
        exact hlen (by simp)
      have htokT : tokens T = [T] := tokens_all_nonWS hallnw hTne
      have htT : t = T := by
        rw [htokT] at ht
        simpa using ht
      rw [htT] at hlent
      exact absurd hlent hlen

theorem mem_of_mem_strip {c : Char} {l : List Char} (h : c ∈ strip l) : c ∈ l := by
  rw [strip] at h
  have h1 : c ∈ l.dropWhile pyWS :=
    (List.rdropWhile_prefix pyWS (l.dropWhile pyWS)).sublist.subset h
  exact (List.dropWhile_suffix pyWS).sublist.subset h1

/-- Main content-preservation result for the chunker, under space-only
whitespace, for tokens that fit inside one chunk. -/
theorem chunk_text_preserves_tokens {text : List Char} {size overlap : Nat}
    (hsp : ∀ c ∈ text, pyWS c = true → c = ' ') :
    ∀ t ∈ tokens text, t.length ≤ size →
      t <:+: (chunk_text text size overlap).flatten := by
  intro t ht hlent
  have htne : t ≠ [] := runsGo_mem_ne_nil t ht
  have htall : ∀ c ∈ t, ¬ pyWS c = true := by
    intro c hc
    have := runsGo_mem_all (p := fun c => !pyWS c)
      (fun d hd => absurd hd (List.not_mem_nil d)) t ht c hc
    simpa using this
  have htinf : t <:+: text := by simpa using runsGo_mem_infix t ht
  obtain ⟨c0, hc0⟩ : ∃ c0, c0 ∈ t := by
    cases t with
    | nil => exact absurd rfl htne
    | cons a as => exact ⟨a, by simp⟩
  have hc0text : c0 ∈ text := htinf.subset hc0
  have hc0ws : ¬ pyWS c0 = true := htall c0 hc0
  have hstrip : strip text ≠ [] := strip_ne_nil hc0text hc0ws
  rw [chunk_text, if_neg hstrip]
  have hsp2 : ∀ c ∈ strip text, pyWS c = true → c = ' ' :=
    fun c hc => hsp c (mem_of_mem_strip hc)
  have ht2 : t ∈ tokens (strip text) := (tokens_strip text).symm ▸ ht
  obtain ⟨p, hp, htp⟩ := recursiveSplit_tokens hsp2 t ht2 hlent
  obtain ⟨c, hc, hpc⟩ := @mergeLoop_piece size overlap _ [] [] p hp
  have htc : t <:+: c := htp.trans hpc
  have hc0c : c0 ∈ c := htc.subset hc0
  have hstc : strip c ≠ [] := strip_ne_nil hc0c hc0ws
  have hfil : c ∈ (mergeLoop size overlap [] []
      (recursiveSplit size [Sep.paragraph, Sep.newline, Sep.space] (strip text))).filter
        (fun c => !(strip c).isEmpty) := by
    refine List.mem_filter.mpr ⟨hc, ?_⟩
    cases hsc : strip c with
    | nil => exact absurd hsc hstc
    | cons a as => simp
  exact htc.trans (List.infix_of_mem_flatten hfil)

end Chunker

/-- C2: the claim states that every chunk returned by
`chunk_text(T, chunk_size, overlap)` has length at most `chunk_size`.
The code violates this (while its own docstring calls `chunk_size` the
"Maximum number of characters per chunk"): after a chunk is emitted, the
overlap tail is seeded into the next buffer and the following piece is
appended without a size check, so the next emitted chunk can reach
`chunk_size + 1 + overlap` characters.  At
`T = "aaaaaaaaaa bbbbbbbbbb cccccccccc"`, `chunk_size = 10`, `overlap = 5`
the produced chunk lengths are `[10, 16, 16]`. -/
theorem chunk_text_exceeds_size_bound :
    (Chunker.chunk_text ("aaaaaaaaaa bbbbbbbbbb cccccccccc".toList) 10 5).map List.length
      = [10, 16, 16] ∧
    ∃ c ∈ Chunker.chunk_text ("aaaaaaaaaa bbbbbbbbbb cccccccccc".toList) 10 5,
      10 < c.length := by
  refine ⟨by decide, ?_⟩
  decide

/-- C3: counterexample to the claim as stated.  For `T = "abcdef"`,
`chunk_size = 3`, `overlap = 1` the chunker returns `["abc", "c def"]`
(the hard character cut splits the long token, and the overlap seeding
injects a stray `"c"`), so the whitespace-delimited token `"abcdef"` of `T`
does not appear in the concatenation `"abcc def"` of the chunks. -/
theorem chunk_text_drops_long_token :
    "abcdef".toList ∈ PyStr.tokens ("abcdef".toList) ∧
    Chunker.chunk_text ("abcdef".toList) 3 1 = ["abc".toList, "c def".toList] ∧
    ¬ ("abcdef".toList <:+: (Chunker.chunk_text ("abcdef".toList) 3 1).flatten) := by
  refine ⟨by decide, by decide, by decide⟩

/-- C3 (amended): for every text `T` whose whitespace characters are all
plain spaces, and all parameters `(size, overlap)`, every whitespace-delimited
token of `T` of length at most `size` appears in the concatenation of the
chunks returned by `chunk_text T size overlap`.  (The original claim without
the token-length and whitespace restrictions fails, see
`chunk_text_drops_long_token`: the hard character cut breaks tokens longer
than `size`, and overlap seeding separates their fragments.) -/
theorem chunk_text_content_preservation {text : List Char} {size overlap : Nat}
    (hsp : ∀ c ∈ text, PyStr.pyWS c = true → c = ' ') :
    ∀ t ∈ PyStr.tokens text, t.length ≤ size →
      t <:+: (Chunker.chunk_text text size overlap).flatten :=
  Chunker.chunk_text_preserves_tokens hsp

/-- C3 witness: the amended preservation theorem applied at
`T = "hello brave new world"`, `size = 6`, `overlap = 2`. -/
theorem chunk_text_content_preservation_witness :
    (∀ c ∈ ("hello brave new world".toList), PyStr.pyWS c = true → c = ' ') ∧
    "brave".toList ∈ PyStr.tokens ("hello brave new world".toList) ∧
    "brave".toList <:+: (Chunker.chunk_text ("hello brave new world".toList) 6 2).flatten :=
  ⟨by decide, by decide,
    chunk_text_content_preservation (by decide) ("brave".toList) (by decide) (by decide)⟩

/-
  src/backend/db/search.py — `_sanitize_fts_query`: convert free-form text
  into a safe FTS5 query expression.
-/

namespace FtsQuery

open PyStr

/-- The character class of the regex `[A-Za-z0-9]{3,}`. -/
def isAlnum (c : Char) : Bool :=
  ('A' ≤ c && c ≤ 'Z') || ('a' ≤ c && c ≤ 'z') || ('0' ≤ c && c ≤ '9')

/-- `re.findall(r"[A-Za-z0-9]{3,}", text)`: the maximal alphanumeric runs of
length at least 3, left to right (the greedy quantifier always captures a
whole maximal run; shorter runs yield no match). -/
def findallAlnum3 (l : List Char) : List (List Char) :=
  (runs isAlnum l).filter (fun r => 3 ≤ r.length)

/-- Python `str.lower()` restricted to ASCII (the scanned tokens contain
only `A–Z`, `a–z`, `0–9`). -/
def lowerChar (c : Char) : Char :=
  if 'A' ≤ c ∧ c ≤ 'Z' then Char.ofNat (c.toNat + 32) else c

def lower (l : List Char) : List Char := l.map lowerChar

/-- The list-comprehension filter of `_sanitize_fts_query`: keep a token iff
its lower-case form has not been seen before (`seen` accumulates the
lower-case forms). -/
def dedupGo : List (List Char) → List (List Char) → List (List Char)
  | [], _ => []
  | t :: rest, seen =>
    if lower t ∈ seen then dedupGo rest seen
    else t :: dedupGo rest (lower t :: seen)

/-- `f'"{t}"'`: wrap a token in double quotes. -/
def quote (t : List Char) : List Char := '"' :: (t ++ ['"'])

/-- `_sanitize_fts_query(text)` from search.py. -/
def sanitize_fts_query (l : List Char) : List Char :=
  let unique := dedupGo (findallAlnum3 l) []
  if unique = [] then ['"', '*', '"']
  else joinSpace (unique.map quote)

/- ------------------------------------------------------------------ -/
/- Lemmas                                                              -/
/- ------------------------------------------------------------------ -/

theorem dedupGo_sublist : ∀ (l seen : List (List Char)), List.Sublist (dedupGo l seen) l := by
  intro l
  induction l with
  | nil => intro seen; simp [dedupGo]
  | cons t rest ih =>
    intro seen
    rw [dedupGo]
    by_cases h : lower t ∈ seen
    · rw [if_pos h]
      exact (ih seen).trans (List.sublist_cons_self t rest)
    · rw [if_neg h]
      exact (ih (lower t :: seen)).cons₂ t

theorem dedupGo_not_seen :
    ∀ (l seen : List (List Char)), ∀ u ∈ dedupGo l seen, lower u ∉ seen := by
  intro l
  induction l with
  | nil => intro seen u hu; simp [dedupGo] at hu
  | cons t rest ih =>
    intro seen u hu
    rw [dedupGo] at hu
    by_cases h : lower t ∈ seen
    · exact ih seen u (by simpa [h] using hu)
    · simp only [if_neg h, List.mem_cons] at hu
      rcases hu with hu | hu
      · subst hu; exact h
      · have := ih (lower t :: seen) u hu
        exact fun hmem => this (List.mem_cons_of_mem _ hmem)

theorem dedupGo_lower_nodup :
    ∀ (l seen : List (List Char)), ((dedupGo l seen).map lower).Nodup := by
  intro l
  induction l with
  | nil => intro seen; simp [dedupGo]
  | cons t rest ih =>
    intro seen
    rw [dedupGo]
    by_cases h : lower t ∈ seen
    · simpa [h] using ih seen
    · simp only [if_neg h, List.map_cons, List.nodup_cons]
      refine ⟨?_, ih (lower t :: seen)⟩
      intro hmem
      rcases List.mem_map.mp hmem with ⟨u, hu, hlu⟩
      exact dedupGo_not_seen rest (lower t :: seen) u hu (by rw [hlu]; simp)

theorem dedupGo_covers :
    ∀ (l seen : List (List Char)), ∀ t ∈ l, lower t ∉ seen →
      ∃ u ∈ dedupGo l seen, lower u = lower t := by
  intro l
  induction l with
  | nil => intro seen t ht; simp at ht
  | cons t0 rest ih =>
    intro seen t ht hns
    rw [dedupGo]
    by_cases h : lower t0 ∈ seen
    · rcases List.mem_cons.mp ht with hte | hte
      · subst hte; exact absurd h hns
      · simpa [h] using ih seen t hte hns
    · simp only [if_neg h]
      rcases List.mem_cons.mp ht with hte | hte
      · subst hte
        exact ⟨t, by simp, rfl⟩
      · by_cases heq : lower t = lower t0
        · exact ⟨t0, by simp, heq.symm⟩
        · have hns2 : lower t ∉ (lower t0 :: seen) := by
            intro hmem
            rcases List.mem_cons.mp hmem with hmem | hmem
            · exact heq hmem
            · exact hns hmem
          obtain ⟨u, hu, hlu⟩ := ih (lower t0 :: seen) t hte hns2
          exact ⟨u, List.mem_cons_of_mem _ hu, hlu⟩

theorem dedupGo_ne_nil {t0 : List Char} {rest : List (List Char)} :
    dedupGo (t0 :: rest) [] ≠ [] := by
  rw [dedupGo]
  simp

end FtsQuery

/-- C9: for every input string, `_sanitize_fts_query` returns the
space-joined conjunction of double-quoted alphanumeric tokens of length at
least 3 extracted from the input (each token is a maximal alphanumeric
substring of the input), de-duplicated case-insensitively while preserving
first-occurrence order, and when no such token exists it returns the
match-everything sentinel `"*"` instead of failing. -/
theorem sanitize_fts_query_spec (l : List Char) :
    (FtsQuery.findallAlnum3 l = [] →
      FtsQuery.sanitize_fts_query l = ['"', '*', '"']) ∧
    (FtsQuery.findallAlnum3 l ≠ [] →
      FtsQuery.sanitize_fts_query l =
        PyStr.joinSpace ((FtsQuery.dedupGo (FtsQuery.findallAlnum3 l) []).map
          FtsQuery.quote)) ∧
    (∀ t ∈ FtsQuery.findallAlnum3 l,
      3 ≤ t.length ∧ (∀ c ∈ t, FtsQuery.isAlnum c = true) ∧ t <:+: l) ∧
    ((FtsQuery.dedupGo (FtsQuery.findallAlnum3 l) []).map FtsQuery.lower).Nodup ∧
    List.Sublist (FtsQuery.dedupGo (FtsQuery.findallAlnum3 l) [])
      (FtsQuery.findallAlnum3 l) ∧
    (∀ t ∈ FtsQuery.findallAlnum3 l,
      ∃ u ∈ FtsQuery.dedupGo (FtsQuery.findallAlnum3 l) [],
        FtsQuery.lower u = FtsQuery.lower t) := by
  refine ⟨?_, ?_, ?_, ?_, ?_, ?_⟩
  · intro h
    rw [FtsQuery.sanitize_fts_query]
    simp [h, FtsQuery.dedupGo]
  · intro h
    rw [FtsQuery.sanitize_fts_query]
    cases hf : FtsQuery.findallAlnum3 l with
    | nil => exact absurd hf h
    | cons t0 rest => simp [FtsQuery.dedupGo_ne_nil]
  · intro t ht
    have hruns : t ∈ PyStr.runs FtsQuery.isAlnum l := List.mem_of_mem_filter ht
    have hlen : 3 ≤ t.length := by
      have := List.of_mem_filter ht
      simpa using this
    refine ⟨hlen, ?_, ?_⟩
    · exact PyStr.runsGo_mem_all (fun d hd => absurd hd (List.not_mem_nil d)) t hruns
    · simpa using PyStr.runsGo_mem_infix t hruns
  · exact FtsQuery.dedupGo_lower_nodup _ []
  · exact FtsQuery.dedupGo_sublist _ []
  · intro t ht
    exact FtsQuery.dedupGo_covers _ [] t ht (by simp)

/-- C9 witness: the sanitiser characterisation applied at the concrete input
`"Hello, hello world! ab x123"` (duplicate `hello` collapses onto the first
occurrence `Hello`; `ab` is too short; the result is
`"Hello" "world" "x123"`). -/
theorem sanitize_fts_query_spec_witness :
    FtsQuery.sanitize_fts_query ("Hello, hello world! ab x123".toList) =
      ("\"Hello\" \"world\" \"x123\"".toList) ∧
    FtsQuery.sanitize_fts_query ("a b -- !".toList) = ("\"*\"".toList) ∧
    (FtsQuery.findallAlnum3 ("Hello, hello world! ab x123".toList) ≠ [] →
      FtsQuery.sanitize_fts_query ("Hello, hello world! ab x123".toList) =
        PyStr.joinSpace ((FtsQuery.dedupGo
          (FtsQuery.findallAlnum3 ("Hello, hello world! ab x123".toList)) []).map
            FtsQuery.quote)) := by
  refine ⟨by decide, by decide, ?_⟩
  exact (sanitize_fts_query_spec ("Hello, hello world! ab x123".toList)).2.1

/-
  src/backend/agent/search_providers.py — `SearchProviderChain`: try
  providers in order; return the first non-empty result list.
-/

namespace Chain

/-- A search provider: `search(query, max_results) → list of URLs`.
Providers return `[]` (never raise) on any failure. -/
structure Provider where
  search : String → Nat → List String

/-- `SearchProviderChain.search`: iterate the ordered providers, returning
the first non-empty URL list, `[]` if all are empty. -/
def chainSearch : List Provider → String → Nat → List String
  | [], _, _ => []
  | p :: rest, q, m =>
    let urls := p.search q m
    if urls = [] then chainSearch rest q m else urls

/-- Number of providers whose `search` method is invoked by
`SearchProviderChain.search` (the loop body runs once per provider until the
first non-empty result). -/
def chainInvoked : List Provider → String → Nat → Nat
  | [], _, _ => 0
  | p :: rest, q, m =>
    if p.search q m = [] then 1 + chainInvoked rest q m else 1

end Chain

/-- C7: for every ordered provider list and query,
`SearchProviderChain.search` returns the result of the first provider whose
search returns a non-empty list — invoking exactly the providers up to and
including that one, so no later provider is invoked — and returns `[]` with
every provider invoked when all results are empty; hence the chain result is
non-empty iff some provider result is non-empty. -/
theorem chain_search_first_nonempty (ps : List Chain.Provider) (q : String) (m : Nat) :
    (Chain.chainSearch ps q m ≠ [] ↔ ∃ p ∈ ps, p.search q m ≠ []) ∧
    (∀ i (h : i < ps.length),
      (∀ j (hj : j < i), (ps.get ⟨j, Nat.lt_trans hj h⟩).search q m = []) →
      (ps.get ⟨i, h⟩).search q m ≠ [] →
      Chain.chainSearch ps q m = (ps.get ⟨i, h⟩).search q m ∧
        Chain.chainInvoked ps q m = i + 1) ∧
    ((∀ p ∈ ps, p.search q m = []) →
      Chain.chainSearch ps q m = [] ∧ Chain.chainInvoked ps q m = ps.length) := by
  induction ps with
  | nil =>
    refine ⟨by simp [Chain.chainSearch], ?_, by simp [Chain.chainSearch, Chain.chainInvoked]⟩
    intro i h
    exact absurd h (by simp)
  | cons p rest ih =>
    refine ⟨?_, ?_, ?_⟩
    · rw [Chain.chainSearch]
      by_cases hp : p.search q m = []
      · rw [if_pos hp]
        constructor
        · intro h
          obtain ⟨p2, hp2, hne⟩ := ih.1.mp h
          exact ⟨p2, List.mem_cons_of_mem _ hp2, hne⟩
        · intro ⟨p2, hp2, hne⟩
          rcases List.mem_cons.mp hp2 with he | he
          · subst he; exact absurd hp hne
          · exact ih.1.mpr ⟨p2, he, hne⟩
      · rw [if_neg hp]
        exact ⟨fun _ => ⟨p, by simp, hp⟩, fun _ => hp⟩
    · intro i h hbefore hi
      cases i with
      | zero =>
        have hp : p.search q m ≠ [] := hi
        rw [Chain.chainSearch, Chain.chainInvoked, if_neg hp, if_neg hp]
        exact ⟨rfl, rfl⟩
      | succ n =>
        have hp : p.search q m = [] := hbefore 0 (Nat.succ_pos n)
        rw [Chain.chainSearch, Chain.chainInvoked, if_pos hp, if_pos hp]
        have hrec := (ih.2.1 n (Nat.lt_of_succ_lt_succ h)
          (fun j hj => hbefore (j + 1) (Nat.succ_lt_succ hj)) hi)
        exact ⟨hrec.1, by rw [hrec.2]; omega⟩
    · intro hall
      have hp : p.search q m = [] := hall p (by simp)
      rw [Chain.chainSearch, Chain.chainInvoked, if_pos hp, if_pos hp]
      have hrec := ih.2.2 (fun p2 hp2 => hall p2 (List.mem_cons_of_mem _ hp2))
      exact ⟨hrec.1, by rw [hrec.2]; simp; omega⟩

/-- C7 witness: a three-provider chain where the first provider returns `[]`
and the second returns `["u1", "u2"]`: the chain returns `["u1", "u2"]` and
invokes exactly the first two providers (the third is never invoked). -/
theorem chain_search_first_nonempty_witness :
    Chain.chainSearch [⟨fun _ _ => []⟩, ⟨fun _ _ => ["u1", "u2"]⟩,
        ⟨fun _ _ => ["x"]⟩] "q" 5 = ["u1", "u2"] ∧
    Chain.chainInvoked [⟨fun _ _ => []⟩, ⟨fun _ _ => ["u1", "u2"]⟩,
        ⟨fun _ _ => ["x"]⟩] "q" 5 = 2 := by
  have h := (chain_search_first_nonempty
    [⟨fun _ _ => []⟩, ⟨fun _ _ => ["u1", "u2"]⟩, ⟨fun _ _ => ["x"]⟩] "q" 5).2.1
    1 (by simp)
    (by
      intro j hj
      cases j with
      | zero => rfl
      | succ n => exact absurd hj (by omega))
    (by simp)
  exact ⟨h.1, h.2⟩

/-
  src/backend/agent/nodes.py `make_evaluator` and
  src/backend/agent/graph.py `_route_evaluator`.
-/

namespace AgentEval

/-- The fields of the `ResearchState` dictionary read by the evaluator:
`state.get("iteration", 1)` and `state.get("findings")` (absent keys are
modelled by `none`). -/
structure ResearchState where
  iteration : Option Nat
  findings : Option (List String)

/-- The `evaluator` closure returned by `make_evaluator`: the value of the
`status` key of the returned patch dictionary.
`maxIterations` is `settings.agent_max_iterations`. -/
def evaluator (maxIterations : Nat) (st : ResearchState) : String :=
  let iteration := st.iteration.getD 1
  let hasFindings := !(st.findings.getD []).isEmpty
  let atLimit := decide (maxIterations ≤ iteration)
  if hasFindings || atLimit then "done" else "re-planning"

/-- The target of the conditional edge out of the evaluator node. -/
inductive Target where
  | endRun   -- langgraph END: the run terminates
  | planner  -- route back to the planner node
deriving DecidableEq

/-- `_route_evaluator` from graph.py:
`END if state["status"] == "done" else "planner"`. -/
def route_evaluator (status : String) : Target :=
  if status = "done" then .endRun else .planner

end AgentEval

/-- C8: the evaluator sets `status` to `"done"` iff the findings list is
non-empty or the iteration count (default 1) is at least the configured
`max_iterations`; otherwise it sets `status` to `"re-planning"`, and the
conditional edge then routes back to the planner node rather than ending
the run. -/
theorem evaluator_done_iff (maxIterations : Nat) (st : AgentEval.ResearchState) :
    (AgentEval.evaluator maxIterations st = "done" ↔
      (st.findings.getD [] ≠ [] ∨ maxIterations ≤ st.iteration.getD 1)) ∧
    (AgentEval.evaluator maxIterations st ≠ "done" →
      AgentEval.evaluator maxIterations st = "re-planning" ∧
      AgentEval.route_evaluator (AgentEval.evaluator maxIterations st) =
        AgentEval.Target.planner) ∧
    AgentEval.route_evaluator "done" = AgentEval.Target.endRun := by
  rw [AgentEval.evaluator]
  by_cases hcond : (!(st.findings.getD []).isEmpty ||
      decide (maxIterations ≤ st.iteration.getD 1)) = true
  · rw [if_pos hcond]
    refine ⟨⟨fun _ => ?_, fun _ => rfl⟩, fun h => absurd rfl h, rfl⟩
    rcases Bool.or_eq_true_iff.mp hcond with h | h
    · left
      intro hnil
      rw [hnil] at h
      simp at h
    · right
      exact of_decide_eq_true h
  · rw [if_neg hcond]
    have hb : (!(st.findings.getD []).isEmpty ||
        decide (maxIterations ≤ st.iteration.getD 1)) = false := by
      simpa using hcond
    have hboth : (st.findings.getD []).isEmpty = true ∧
        ¬ (maxIterations ≤ st.iteration.getD 1) := by
      rcases Bool.or_eq_false_iff.mp hb with ⟨h1, h2⟩
      exact ⟨by simpa using h1, by simpa using h2⟩
    refine ⟨⟨fun h => absurd h (by decide), fun h => ?_⟩, fun _ => ⟨rfl, by decide⟩, rfl⟩
    rcases h with h | h
    · exact absurd (List.isEmpty_iff.mp hboth.1) h
    · exact absurd h hboth.2

/-- C8 witness: with no findings and iteration 2 below the limit 5, the
evaluator answers `"re-planning"` and control routes back to the planner. -/
theorem evaluator_done_iff_witness :
    AgentEval.evaluator 5 ⟨some 2, none⟩ = "re-planning" ∧
    AgentEval.route_evaluator (AgentEval.evaluator 5 ⟨some 2, none⟩) =
      AgentEval.Target.planner :=
  (evaluator_done_iff 5 ⟨some 2, none⟩).2.1 (by decide)

/-
  src/backend/db/nodes.py and src/backend/db/edges.py — CRUD operations on
  the `nodes` and `edges` tables.  The SQLite schema (schema.sql) is not
  under src/; its constraints (foreign keys with ON DELETE CASCADE and the
  UNIQUE edge triple) are modelled from the specification, §3 and §6.
-/

namespace GraphStore

/-- A row of the `nodes` table:
`nodes(id PK, node_type, title, content_path NULL, metadata JSON, created_at, updated_at)`.
`metadata` holds the JSON blob exactly as stored. -/
structure Node where
  id : String
  node_type : String
  title : String
  content_path : Option String
  metadata : String
  created_at : Nat
  updated_at : Nat
deriving DecidableEq

/-- A row of the `edges` table:
`edges(source_id, target_id, relation_type, created_at)`. -/
structure Edge where
  source_id : String
  target_id : String
  relation_type : String
  created_at : Nat
deriving DecidableEq

/-- The node and edge rows of the store. -/
structure Store where
  nodes : List Node
  edges : List Edge
deriving DecidableEq

/-- `get_node(conn, node_id)`: `SELECT * FROM nodes WHERE id = ?` fetchone. -/
def get_node (db : List Node) (node_id : String) : Option Node :=
  db.find? (fun r => r.id = node_id)

/-- The three `ValueError` raise sites of `update_node`, by message. -/
inductive UpdateError where
  | notFound             -- "Node not found: ..."
  | badField (name : String)  -- "Cannot update field ..."
  | noFields             -- "No valid fields provided to update_node()"
deriving DecidableEq

/-- `allowed = {"title", "node_type", "content_path", "metadata"}`. -/
def allowedFields : List String := ["title", "node_type", "content_path", "metadata"]

/-- The kwargs-validation loop of `update_node`: walk the keyword arguments
in order, raising on the first disallowed name, passing `metadata` values
through `json.dumps` and keeping the others verbatim. -/
def buildUpdates (dumps : String → String) :
    List (String × String) → Except UpdateError (List (String × String))
  | [] => .ok []
  | (k, v) :: rest =>
    if k ∈ allowedFields then
      match buildUpdates dumps rest with
      | .ok updates => .ok ((k, if k = "metadata" then dumps v else v) :: updates)
      | .error e => .error e
    else .error (.badField k)

/-- One `col = ?` assignment of the generated `UPDATE nodes SET ...`. -/
def applyField (r : Node) (kv : String × String) : Node :=
  if kv.1 = "title" then { r with title := kv.2 }
  else if kv.1 = "node_type" then { r with node_type := kv.2 }
  else if kv.1 = "content_path" then { r with content_path := some kv.2 }
  else if kv.1 = "metadata" then { r with metadata := kv.2 }
  else r

def applyUpdates (r : Node) (updates : List (String × String)) : Node :=
  updates.foldl applyField r

/-- The result of an `update_node` call: the returned node or the raised
error, together with the state of the `nodes` table after the call. -/
structure UpdateOutcome where
  result : Except UpdateError Node
  db : List Node

/-- `update_node(conn, node_id, **kwargs)` from nodes.py.  `kwargs` is the
keyword-argument dictionary as an ordered association list (Python keeps
keyword order and forbids duplicate keys); `now` is `int(time())`; `dumps`
is `json.dumps` on metadata values.  All validation happens before the
single `UPDATE` statement is issued. -/
def update_node (db : List Node) (node_id : String) (kwargs : List (String × String))
    (now : Nat) (dumps : String → String) : UpdateOutcome :=
  match get_node db node_id with
  | none => ⟨.error .notFound, db⟩
  | some _ =>
    match buildUpdates dumps kwargs with
    | .error e => ⟨.error e, db⟩
    | .ok updates =>
      if updates = [] then ⟨.error .noFields, db⟩
      else
        let db2 := db.map (fun r =>
          if r.id = node_id then { applyUpdates r updates with updated_at := now } else r)
        match get_node db2 node_id with
        | some n => ⟨.ok n, db2⟩
        | none => ⟨.error .notFound, db2⟩

/-- `delete_node(conn, node_id)`: `DELETE FROM nodes WHERE id = ?`.
Modelled from the spec: the cascade to incident edges comes from schema.sql
(not under src/), whose `edges` table declares its `source_id` / `target_id`
foreign keys with ON DELETE CASCADE (spec §6, §3 invariant 1), activated by
`PRAGMA foreign_keys = ON` in src/backend/db/connection.py.  If no node row
matches, the statement deletes nothing and no cascade fires. -/
def delete_node (st : Store) (node_id : String) : Store :=
  if st.nodes.any (fun r => r.id = node_id) then
    { nodes := st.nodes.filter (fun r => r.id ≠ node_id),
      edges := st.edges.filter (fun e => e.source_id ≠ node_id ∧ e.target_id ≠ node_id) }
  else st

/-- `connect_nodes(conn, source_id, target_id, relation_type)` from edges.py:
`INSERT OR IGNORE INTO edges ...`.
Modelled from the spec: schema.sql (not under src/) declares
`UNIQUE(source_id, target_id, relation_type)` — making the insert a no-op
when the triple already exists (spec §3) — and foreign keys on both
endpoints (spec §6), which `OR IGNORE` does not suppress: inserting an edge
whose endpoint is missing raises an integrity error and leaves the store
unchanged. -/
def connect_nodes (st : Store) (source_id target_id relation_type : String)
    (now : Nat) : Except String Store :=
  if st.nodes.any (fun r => r.id = source_id) ∧ st.nodes.any (fun r => r.id = target_id) then
    .ok (if st.edges.any (fun e =>
          e.source_id = source_id ∧ e.target_id = target_id ∧
            e.relation_type = relation_type)
      then st
      else { st with edges := st.edges ++ [⟨source_id, target_id, relation_type, now⟩] })
  else .error "FOREIGN KEY constraint failed"

/- ------------------------------------------------------------------ -/
/- Lemmas about update_node                                            -/
/- ------------------------------------------------------------------ -/

theorem applyField_id (r : Node) (kv : String × String) : (applyField r kv).id = r.id := by
  rw [applyField]
  split
  · rfl
  · split
    · rfl
    · split
      · rfl
      · split <;> rfl

theorem applyField_created_at (r : Node) (kv : String × String) :
    (applyField r kv).created_at = r.created_at := by
  rw [applyField]
  split
  · rfl
  · split
    · rfl
    · split
      · rfl
      · split <;> rfl

theorem applyUpdates_id (us : List (String × String)) :
    ∀ r : Node, (applyUpdates r us).id = r.id := by
  induction us with
  | nil => intro r; rfl
  | cons kv rest ih =>
    intro r
    rw [applyUpdates, List.foldl_cons]
    rw [show List.foldl applyField (applyField r kv) rest = applyUpdates (applyField r kv) rest from rfl]
    rw [ih, applyField_id]

theorem applyUpdates_created_at (us : List (String × String)) :
    ∀ r : Node, (applyUpdates r us).created_at = r.created_at := by
  induction us with
  | nil => intro r; rfl
  | cons kv rest ih =>
    intro r
    rw [applyUpdates, List.foldl_cons]
    rw [show List.foldl applyField (applyField r kv) rest = applyUpdates (applyField r kv) rest from rfl]
    rw [ih, applyField_created_at]

theorem applyField_title (r : Node) (k v : String) :
    (applyField r (k, v)).title = if k = "title" then v else r.title := by
  by_cases h : k = "title"
  · simp [applyField, h]
  · rw [if_neg h, applyField, if_neg h]
    split
    · rfl
    · split
      · rfl
      · split <;> rfl

theorem applyField_node_type (r : Node) (k v : String) :
    (applyField r (k, v)).node_type = if k = "node_type" then v else r.node_type := by
  by_cases h1 : k = "title" <;> by_cases h2 : k = "node_type" <;>
    by_cases h3 : k = "content_path" <;> by_cases h4 : k = "metadata" <;>
    simp_all [applyField]

theorem applyField_content_path (r : Node) (k v : String) :
    (applyField r (k, v)).content_path =
      if k = "content_path" then some v else r.content_path := by
  by_cases h1 : k = "title" <;> by_cases h2 : k = "node_type" <;>
    by_cases h3 : k = "content_path" <;> by_cases h4 : k = "metadata" <;>
    simp_all [applyField]

theorem applyField_metadata (r : Node) (k v : String) :
    (applyField r (k, v)).metadata = if k = "metadata" then v else r.metadata := by
  by_cases h1 : k = "title" <;> by_cases h2 : k = "node_type" <;>
    by_cases h3 : k = "content_path" <;> by_cases h4 : k = "metadata" <;>
    simp_all [applyField]

theorem applyUpdates_cons (r : Node) (kv : String × String) (rest : List (String × String)) :
    applyUpdates r (kv :: rest) = applyUpdates (applyField r kv) rest := rfl

theorem lookup_cons (key k v : String) (rest : List (String × String)) :
    ((k, v) :: rest).lookup key = if key == k then some v else rest.lookup key := by
  rw [List.lookup]
  split <;> rename_i h
  · rw [if_pos h]
  · rw [if_neg (by simp_all)]

/-- A field not named among the updates keeps its value through the
generated SET clause. -/
theorem applyUpdates_getter_notmem {α : Type} (g : Node → α) (s : String)
    (hg : ∀ (r : Node) (k v : String), k ≠ s → g (applyField r (k, v)) = g r) :
    ∀ (us : List (String × String)) (r : Node), (∀ kv ∈ us, kv.1 ≠ s) →
      g (applyUpdates r us) = g r := by
  intro us
  induction us with
  | nil => intro r _; rfl
  | cons kv rest ih =>
    intro r hnm
    obtain ⟨k, v⟩ := kv
    rw [applyUpdates_cons, ih _ (fun kv2 h2 => hnm kv2 (List.mem_cons_of_mem _ h2)),
        hg r k v (hnm (k, v) (by simp))]

/-- With distinct update keys, each field of the updated row is the supplied
value when its key is named, and the old value otherwise. -/
theorem applyUpdates_getter {α : Type} (g : Node → α) (s : String) (val : String → α)
    (hg : ∀ (r : Node) (k v : String), k ≠ s → g (applyField r (k, v)) = g r)
    (hpos : ∀ (r : Node) (v : String), g (applyField r (s, v)) = val v) :
    ∀ (us : List (String × String)) (r : Node), (us.map Prod.fst).Nodup →
      g (applyUpdates r us) =
        match us.lookup s with
        | some v => val v
        | none => g r := by
  intro us
  induction us with
  | nil => intro r _; rfl
  | cons kv rest ih =>
    intro r hnd
    obtain ⟨k, v⟩ := kv
    rw [applyUpdates_cons, lookup_cons]
    simp only [List.map_cons, List.nodup_cons] at hnd
    by_cases h : k = s
    · subst h
      rw [if_pos (by simp)]
      have hnm : ∀ kv2 ∈ rest, kv2.1 ≠ k := by
        intro kv2 h2 he
        exact hnd.1 (he ▸ List.mem_map_of_mem Prod.fst h2)
      rw [applyUpdates_getter_notmem g k hg rest _ hnm, hpos]
    · rw [if_neg (by simp only [beq_iff_eq]; exact fun he => h he.symm)]
      rw [ih (applyField r (k, v)) hnd.2]
      cases hrest : rest.lookup s with
      | some v2 => rfl
      | none => rw [hg r k v h]

/-- With only allowed field names, the validation loop succeeds and returns
the keyword pairs in order, metadata values serialised. -/
theorem buildUpdates_all_allowed (dumps : String → String) :
    ∀ kwargs : List (String × String), (∀ kv ∈ kwargs, kv.1 ∈ allowedFields) →
      buildUpdates dumps kwargs =
        .ok (kwargs.map (fun kv =>
          (kv.1, if kv.1 = "metadata" then dumps kv.2 else kv.2))) := by
  intro kwargs
  induction kwargs with
  | nil => intro _; rfl
  | cons kv rest ih =>
    intro h
    obtain ⟨k, v⟩ := kv
    rw [buildUpdates, if_pos (h (k, v) (by simp)),
      ih (fun kv2 h2 => h kv2 (List.mem_cons_of_mem _ h2))]
    rfl

/-- A disallowed field name makes the validation loop raise
`Cannot update field ...` for one of the offending names. -/
theorem buildUpdates_bad (dumps : String → String) :
    ∀ kwargs : List (String × String), (∃ kv ∈ kwargs, kv.1 ∉ allowedFields) →
      ∃ k, buildUpdates dumps kwargs = .error (.badField k) ∧
        k ∈ kwargs.map Prod.fst ∧ k ∉ allowedFields := by
  intro kwargs
  induction kwargs with
  | nil =>
    rintro ⟨kv, h, _⟩
    simp at h
  | cons kv rest ih =>
    rintro ⟨kv2, hmem, hbad⟩
    obtain ⟨k, v⟩ := kv
    by_cases hk : k ∈ allowedFields
    · have hrest : ∃ kv ∈ rest, kv.1 ∉ allowedFields := by
        rcases List.mem_cons.mp hmem with he | he
        · subst he; exact absurd hk hbad
        · exact ⟨kv2, he, hbad⟩
      obtain ⟨k2, herr, hmem2, hbad2⟩ := ih hrest
      refine ⟨k2, ?_, by simp [hmem2], hbad2⟩
      rw [buildUpdates, if_pos hk, herr]
    · exact ⟨k, by rw [buildUpdates, if_neg hk], by simp, hk⟩

theorem lookup_transform_other (dumps : String → String) (key : String)
    (hkey : key ≠ "metadata") :
    ∀ kwargs : List (String × String),
      (kwargs.map (fun kv =>
        (kv.1, if kv.1 = "metadata" then dumps kv.2 else kv.2))).lookup key
        = kwargs.lookup key := by
  intro kwargs
  induction kwargs with
  | nil => rfl
  | cons kv rest ih =>
    obtain ⟨k, v⟩ := kv
    by_cases h : key = k
    · subst h
      simp [lookup_cons, hkey]
    · simp [lookup_cons, h, ih]

theorem lookup_transform_metadata (dumps : String → String) :
    ∀ kwargs : List (String × String),
      (kwargs.map (fun kv =>
        (kv.1, if kv.1 = "metadata" then dumps kv.2 else kv.2))).lookup "metadata"
        = (kwargs.lookup "metadata").map dumps := by
  intro kwargs
  induction kwargs with
  | nil => rfl
  | cons kv rest ih =>
    obtain ⟨k, v⟩ := kv
    by_cases h : ("metadata" : String) = k
    · subst h
      simp [lookup_cons]
    · simp [lookup_cons, h, ih, fun hm : k = "metadata" => h hm.symm]

theorem transform_keys (dumps : String → String) (kwargs : List (String × String)) :
    (kwargs.map (fun kv =>
      (kv.1, if kv.1 = "metadata" then dumps kv.2 else kv.2))).map Prod.fst
      = kwargs.map Prod.fst := by
  induction kwargs with
  | nil => rfl
  | cons kv rest ih => simp [ih]

theorem get_node_map_self {db : List Node} {nid : String} {f : Node → Node}
    (hf : ∀ r, (f r).id = r.id) :
    get_node (db.map (fun r => if r.id = nid then f r else r)) nid =
      (get_node db nid).map (fun r => if r.id = nid then f r else r) := by
  rw [get_node, get_node, List.find?_map]
  have : ((fun r : Node => decide (r.id = nid)) ∘
      (fun r : Node => if r.id = nid then f r else r)) = fun r : Node => decide (r.id = nid) := by
    funext r
    by_cases h : r.id = nid
    · simp [h, hf]
    · simp [h]
  rw [this]

theorem get_node_mem {db : List Node} {nid : String} {r : Node}
    (h : get_node db nid = some r) : r ∈ db ∧ r.id = nid := by
  rw [get_node] at h
  exact ⟨List.mem_of_find?_eq_some h, by simpa using List.find?_some h⟩

/-- The updated row written by `update_node`, described field by field from
the keyword arguments: named fields take the supplied values (metadata after
`json.dumps`), `updated_at` becomes `now`, everything else is unchanged. -/
def updatedRow (kwargs : List (String × String)) (now : Nat)
    (dumps : String → String) (r : Node) : Node where
  id := r.id
  node_type :=
    match kwargs.lookup "node_type" with
    | some v => v
    | none => r.node_type
  title :=
    match kwargs.lookup "title" with
    | some v => v
    | none => r.title
  content_path :=
    match kwargs.lookup "content_path" with
    | some v => some v
    | none => r.content_path
  metadata :=
    match kwargs.lookup "metadata" with
    | some v => dumps v
    | none => r.metadata
  created_at := r.created_at
  updated_at := now

theorem applyUpdates_updatedRow {kwargs : List (String × String)} {now : Nat}
    {dumps : String → String} (hkeys : (kwargs.map Prod.fst).Nodup) (r : Node) :
    { applyUpdates r (kwargs.map (fun kv =>
        (kv.1, if kv.1 = "metadata" then dumps kv.2 else kv.2))) with updated_at := now }
      = updatedRow kwargs now dumps r := by
  have hnd : ((kwargs.map (fun kv =>
      (kv.1, if kv.1 = "metadata" then dumps kv.2 else kv.2))).map Prod.fst).Nodup := by
    rw [transform_keys]
    exact hkeys
  have htitle := applyUpdates_getter Node.title "title" (fun v => v)
    (fun r k v hk => by rw [applyField_title, if_neg hk])
    (fun r v => by rw [applyField_title, if_pos rfl]) _ r hnd
  have hnt := applyUpdates_getter Node.node_type "node_type" (fun v => v)
    (fun r k v hk => by rw [applyField_node_type, if_neg hk])
    (fun r v => by rw [applyField_node_type, if_pos rfl]) _ r hnd
  have hcp := applyUpdates_getter Node.content_path "content_path" (fun v => some v)
    (fun r k v hk => by rw [applyField_content_path, if_neg hk])
    (fun r v => by rw [applyField_content_path, if_pos rfl]) _ r hnd
  have hmd := applyUpdates_getter Node.metadata "metadata" (fun v => v)
    (fun r k v hk => by rw [applyField_metadata, if_neg hk])
    (fun r v => by rw [applyField_metadata, if_pos rfl]) _ r hnd
  rw [lookup_transform_other dumps "title" (by decide)] at htitle
  rw [lookup_transform_other dumps "node_type" (by decide)] at hnt
  rw [lookup_transform_other dumps "content_path" (by decide)] at hcp
  rw [lookup_transform_metadata dumps] at hmd
  simp only [Node.mk.injEq, updatedRow]
  refine ⟨applyUpdates_id _ r, ?_, ?_, ?_, ?_, applyUpdates_created_at _ r, trivial⟩
  · rw [hnt]
  · rw [htitle]
  · rw [hcp]
  · rw [hmd]
    cases kwargs.lookup "metadata" <;> rfl

end GraphStore

/-- C4 (amended): `update_node` raises a not-found error when the id names no
existing node (this check runs first); with an existing id it raises a
validation error when some supplied field name is outside
`{title, node_type, content_path, metadata}`, and also — the case the
original claim omits — when no fields are supplied at all; otherwise it
updates exactly the named fields together with `updated_at` set to the
current time, leaving every other field and every other row unchanged, and
returns the updated node. -/
theorem update_node_validation_and_update (db : List GraphStore.Node) (nid : String)
    (kwargs : List (String × String)) (now : Nat) (dumps : String → String)
    (hkeys : (kwargs.map Prod.fst).Nodup) :
    (GraphStore.get_node db nid = none →
      (GraphStore.update_node db nid kwargs now dumps).result =
        .error .notFound ∧
      (GraphStore.update_node db nid kwargs now dumps).db = db) ∧
    (GraphStore.get_node db nid ≠ none →
      (∃ kv ∈ kwargs, kv.1 ∉ GraphStore.allowedFields) →
      (∃ k, k ∉ GraphStore.allowedFields ∧ k ∈ kwargs.map Prod.fst ∧
        (GraphStore.update_node db nid kwargs now dumps).result =
          .error (.badField k)) ∧
      (GraphStore.update_node db nid kwargs now dumps).db = db) ∧
    (GraphStore.get_node db nid ≠ none → kwargs = [] →
      (GraphStore.update_node db nid kwargs now dumps).result =
        .error .noFields ∧
      (GraphStore.update_node db nid kwargs now dumps).db = db) ∧
    (GraphStore.get_node db nid ≠ none →
      (∀ kv ∈ kwargs, kv.1 ∈ GraphStore.allowedFields) → kwargs ≠ [] →
      (GraphStore.update_node db nid kwargs now dumps).db =
        db.map (fun r => if r.id = nid then GraphStore.updatedRow kwargs now dumps r else r) ∧
      (∃ n, (GraphStore.update_node db nid kwargs now dumps).result = .ok n)) := by
  refine ⟨?_, ?_, ?_, ?_⟩
  · intro h
    simp [GraphStore.update_node, h]
  · intro hex hbad
    obtain ⟨r0, hr0⟩ : ∃ r0, GraphStore.get_node db nid = some r0 := by
      cases h : GraphStore.get_node db nid with
      | none => exact absurd h hex
      | some r0 => exact ⟨r0, rfl⟩
    obtain ⟨k, herr, hkmem, hknot⟩ := GraphStore.buildUpdates_bad dumps kwargs hbad
    refine ⟨⟨k, hknot, hkmem, ?_⟩, ?_⟩ <;>
      simp [GraphStore.update_node, hr0, herr]
  · intro hex hnil
    subst hnil
    obtain ⟨r0, hr0⟩ : ∃ r0, GraphStore.get_node db nid = some r0 := by
      cases h : GraphStore.get_node db nid with
      | none => exact absurd h hex
      | some r0 => exact ⟨r0, rfl⟩
    constructor <;> simp [GraphStore.update_node, hr0, GraphStore.buildUpdates]
  · intro hex hall hne
    obtain ⟨r0, hr0⟩ : ∃ r0, GraphStore.get_node db nid = some r0 := by
      cases h : GraphStore.get_node db nid with
      | none => exact absurd h hex
      | some r0 => exact ⟨r0, rfl⟩
    have hbuild := GraphStore.buildUpdates_all_allowed dumps kwargs hall
    have husne : kwargs.map (fun kv =>
        (kv.1, if kv.1 = "metadata" then dumps kv.2 else kv.2)) ≠ [] := by
      cases kwargs with
      | nil => exact absurd rfl hne
      | cons kv rest => simp
    have hmapeq : (db.map (fun r =>
        if r.id = nid then
          { GraphStore.applyUpdates r (kwargs.map (fun kv =>
              (kv.1, if kv.1 = "metadata" then dumps kv.2 else kv.2)))
            with updated_at := now }
        else r)) =
        db.map (fun r =>
          if r.id = nid then GraphStore.updatedRow kwargs now dumps r else r) := by
      refine List.map_congr_left ?_
      intro r _
      by_cases h : r.id = nid
      · rw [if_pos h, if_pos h, GraphStore.applyUpdates_updatedRow hkeys]
      · rw [if_neg h, if_neg h]
    have hf : ∀ r : GraphStore.Node,
        (GraphStore.updatedRow kwargs now dumps r).id = r.id := fun r => rfl
    have hsome : GraphStore.get_node (db.map (fun r =>
        if r.id = nid then GraphStore.updatedRow kwargs now dumps r else r)) nid =
        some (if r0.id = nid then GraphStore.updatedRow kwargs now dumps r0 else r0) := by
      rw [GraphStore.get_node_map_self (f := fun r => GraphStore.updatedRow kwargs now dumps r) hf,
        hr0]
      rfl
    constructor
    · simp only [GraphStore.update_node, hr0, hbuild, if_neg husne, hmapeq]
      cases hg : GraphStore.get_node (db.map (fun r =>
          if r.id = nid then GraphStore.updatedRow kwargs now dumps r else r)) nid <;> rfl
    · refine ⟨if r0.id = nid then GraphStore.updatedRow kwargs now dumps r0 else r0, ?_⟩
      simp only [GraphStore.update_node, hr0, hbuild, if_neg husne, hmapeq, hsome]

/-- C4: counterexample to the claim as stated.  With a store containing node
`"n1"` and an empty set of supplied fields, no supplied name is outside the
allowed set and the id exists, so the claim requires a successful update (of
zero fields plus `updated_at`); the code instead raises
`ValueError("No valid fields provided to update_node()")`. -/
theorem update_node_empty_kwargs_rejected :
    GraphStore.get_node [⟨"n1", "Concept", "T", none, "\x7b\x7d", 1, 1⟩] "n1" ≠ none ∧
    (∀ kv ∈ ([] : List (String × String)), kv.1 ∈ GraphStore.allowedFields) ∧
    (GraphStore.update_node [⟨"n1", "Concept", "T", none, "\x7b\x7d", 1, 1⟩]
      "n1" [] 5 (fun s => s)).result = .error .noFields := by
  refine ⟨by decide, by simp, rfl⟩

/-- C4 witness: the amended theorem applied to a one-node store with
`kwargs = [("title", "New")]`: the title and `updated_at` change, everything
else is untouched, and the updated node is returned. -/
theorem update_node_validation_and_update_witness :
    GraphStore.get_node [⟨"n1", "Concept", "Old", none, "m", 1, 1⟩] "n1" ≠ none ∧
    (GraphStore.update_node [⟨"n1", "Concept", "Old", none, "m", 1, 1⟩]
        "n1" [("title", "New")] 9 (fun s => s)).db =
      [⟨"n1", "Concept", "New", none, "m", 1, 9⟩] ∧
    (∃ n, (GraphStore.update_node [⟨"n1", "Concept", "Old", none, "m", 1, 1⟩]
        "n1" [("title", "New")] 9 (fun s => s)).result = .ok n) := by
  have h := (update_node_validation_and_update
    [⟨"n1", "Concept", "Old", none, "m", 1, 1⟩] "n1" [("title", "New")] 9
    (fun s => s) (by decide)).2.2.2 (by decide) (by decide) (by decide)
  exact ⟨by decide, h.1.trans (by decide), h.2⟩

/-- C10: whenever `update_node` raises — unknown id, disallowed field name,
or no valid fields — the error is raised before the `UPDATE` statement is
issued, so the nodes table after the call is exactly what it was before. -/
theorem update_node_error_leaves_store_unchanged (db : List GraphStore.Node)
    (nid : String) (kwargs : List (String × String)) (now : Nat)
    (dumps : String → String) :
    ∀ e, (GraphStore.update_node db nid kwargs now dumps).result = .error e →
      (GraphStore.update_node db nid kwargs now dumps).db = db := by
  intro e he
  cases hr : GraphStore.get_node db nid with
  | none => simp [GraphStore.update_node, hr]
  | some r0 =>
    cases hb : GraphStore.buildUpdates dumps kwargs with
    | error e2 => simp [GraphStore.update_node, hr, hb]
    | ok us =>
      by_cases hnil : us = []
      · simp [GraphStore.update_node, hr, hb, hnil]
      · exfalso
        have hf : ∀ r : GraphStore.Node,
            ({ GraphStore.applyUpdates r us with updated_at := now } :
              GraphStore.Node).id = r.id :=
          fun r => GraphStore.applyUpdates_id us r
        have hsome : GraphStore.get_node (db.map (fun r =>
            if r.id = nid then
              { GraphStore.applyUpdates r us with updated_at := now } else r)) nid =
            some (if r0.id = nid then
              { GraphStore.applyUpdates r0 us with updated_at := now } else r0) := by
          rw [GraphStore.get_node_map_self
            (f := fun r => { GraphStore.applyUpdates r us with updated_at := now }) hf, hr]
          rfl
        simp [GraphStore.update_node, hr, hb, hnil, hsome] at he

/-- C10 witness: the no-write theorem applied at a concrete erroring call
(unknown field name `"bogus"` on an existing node). -/
theorem update_node_error_leaves_store_unchanged_witness :
    (GraphStore.update_node [⟨"n1", "Concept", "T", none, "m", 1, 1⟩]
        "n1" [("bogus", "v")] 5 (fun s => s)).result =
      .error (.badField "bogus") ∧
    (GraphStore.update_node [⟨"n1", "Concept", "T", none, "m", 1, 1⟩]
        "n1" [("bogus", "v")] 5 (fun s => s)).db =
      [⟨"n1", "Concept", "T", none, "m", 1, 1⟩] :=
  ⟨rfl, update_node_error_leaves_store_unchanged
    [⟨"n1", "Concept", "T", none, "m", 1, 1⟩] "n1" [("bogus", "v")] 5
    (fun s => s) (.badField "bogus") rfl⟩

/-- C5: for every node id present in the store, `delete_node` removes that
node and every edge whose source or target is that id (no dangling edges
remain) while keeping all other nodes and edges; for an id naming no
existing node it is a no-op that leaves the store unchanged. -/
theorem delete_node_cascades (st : GraphStore.Store) (nid : String) :
    (nid ∈ st.nodes.map GraphStore.Node.id →
      (∀ r ∈ (GraphStore.delete_node st nid).nodes, r.id ≠ nid) ∧
      (∀ e ∈ (GraphStore.delete_node st nid).edges,
        e.source_id ≠ nid ∧ e.target_id ≠ nid) ∧
      (∀ r ∈ st.nodes, r.id ≠ nid → r ∈ (GraphStore.delete_node st nid).nodes) ∧
      (∀ e ∈ st.edges, e.source_id ≠ nid → e.target_id ≠ nid →
        e ∈ (GraphStore.delete_node st nid).edges) ∧
      (∀ r ∈ (GraphStore.delete_node st nid).nodes, r ∈ st.nodes) ∧
      (∀ e ∈ (GraphStore.delete_node st nid).edges, e ∈ st.edges)) ∧
    (nid ∉ st.nodes.map GraphStore.Node.id → GraphStore.delete_node st nid = st) := by
  constructor
  · intro hmem
    have hany : st.nodes.any (fun r => r.id = nid) = true := by
      rw [List.any_eq_true]
      rcases List.mem_map.mp hmem with ⟨r, hr, hid⟩
      exact ⟨r, hr, by simp [hid]⟩
    rw [GraphStore.delete_node, if_pos hany]
    refine ⟨?_, ?_, ?_, ?_, ?_, ?_⟩
    · intro r hr
      have := List.of_mem_filter hr
      simpa using this
    · intro e he
      have := List.of_mem_filter he
      simpa using this
    · intro r hr hne
      exact List.mem_filter.mpr ⟨hr, by simpa using hne⟩
    · intro e he hs ht
      exact List.mem_filter.mpr ⟨he, by simp [hs, ht]⟩
    · intro r hr
      exact List.mem_of_mem_filter hr
    · intro e he
      exact List.mem_of_mem_filter he
  · intro hmem
    have hany : st.nodes.any (fun r => r.id = nid) = false := by
      rw [List.any_eq_false]
      intro r hr
      simp only [decide_eq_true_eq]
      intro hid
      exact hmem (List.mem_map.mpr ⟨r, hr, hid⟩)
    rw [GraphStore.delete_node, hany]
    rfl

/-- C5 witness: deleting node `"A"` from a two-node store with edges
`A → B` and `B → B` removes `A` and the incident edge, keeping the rest;
deleting the unknown id `"Z"` changes nothing. -/
theorem delete_node_cascades_witness :
    (GraphStore.delete_node
        ⟨[⟨"A", "Concept", "a", none, "m", 1, 1⟩, ⟨"B", "Concept", "b", none, "m", 1, 1⟩],
         [⟨"A", "B", "related", 2⟩, ⟨"B", "B", "self", 3⟩]⟩ "A") =
      ⟨[⟨"B", "Concept", "b", none, "m", 1, 1⟩], [⟨"B", "B", "self", 3⟩]⟩ ∧
    ("A" ∈ ([⟨"A", "Concept", "a", none, "m", 1, 1⟩,
        ⟨"B", "Concept", "b", none, "m", 1, 1⟩] : List GraphStore.Node).map
          GraphStore.Node.id) ∧
    (∀ e ∈ (GraphStore.delete_node
        ⟨[⟨"A", "Concept", "a", none, "m", 1, 1⟩, ⟨"B", "Concept", "b", none, "m", 1, 1⟩],
         [⟨"A", "B", "related", 2⟩, ⟨"B", "B", "self", 3⟩]⟩ "A").edges,
      e.source_id ≠ "A" ∧ e.target_id ≠ "A") ∧
    GraphStore.delete_node
        ⟨[⟨"A", "Concept", "a", none, "m", 1, 1⟩, ⟨"B", "Concept", "b", none, "m", 1, 1⟩],
         [⟨"A", "B", "related", 2⟩, ⟨"B", "B", "self", 3⟩]⟩ "Z" =
      ⟨[⟨"A", "Concept", "a", none, "m", 1, 1⟩, ⟨"B", "Concept", "b", none, "m", 1, 1⟩],
       [⟨"A", "B", "related", 2⟩, ⟨"B", "B", "self", 3⟩]⟩ := by
  refine ⟨by decide, by decide, ?_, ?_⟩
  · exact (delete_node_cascades
      ⟨[⟨"A", "Concept", "a", none, "m", 1, 1⟩, ⟨"B", "Concept", "b", none, "m", 1, 1⟩],
       [⟨"A", "B", "related", 2⟩, ⟨"B", "B", "self", 3⟩]⟩ "A").1 (by decide) |>.2.1
  · exact (delete_node_cascades
      ⟨[⟨"A", "Concept", "a", none, "m", 1, 1⟩, ⟨"B", "Concept", "b", none, "m", 1, 1⟩],
       [⟨"A", "B", "related", 2⟩, ⟨"B", "B", "self", 3⟩]⟩ "Z").2 (by decide)

/-- C6: for every triple of source id, target id and relation type whose
endpoints name existing nodes, and a store whose edge triples are unique
(the modelled UNIQUE constraint), calling `connect_nodes` twice succeeds
and leaves exactly one edge with that triple; the second call returns the
state of the first unchanged. -/
theorem connect_nodes_idempotent (st : GraphStore.Store)
    (sid tid rel : String) (n1 n2 : Nat)
    (hs : sid ∈ st.nodes.map GraphStore.Node.id)
    (ht : tid ∈ st.nodes.map GraphStore.Node.id)
    (huniq : st.edges.countP (fun e =>
      e.source_id = sid ∧ e.target_id = tid ∧ e.relation_type = rel) ≤ 1) :
    ∃ st1, GraphStore.connect_nodes st sid tid rel n1 = .ok st1 ∧
      GraphStore.connect_nodes st1 sid tid rel n2 = .ok st1 ∧
      st1.edges.countP (fun e =>
        e.source_id = sid ∧ e.target_id = tid ∧ e.relation_type = rel) = 1 ∧
      st1.nodes = st.nodes := by
  have hanyS : st.nodes.any (fun r => r.id = sid) = true := by
    rw [List.any_eq_true]
    rcases List.mem_map.mp hs with ⟨r, hr, hid⟩
    exact ⟨r, hr, by simp [hid]⟩
  have hanyT : st.nodes.any (fun r => r.id = tid) = true := by
    rw [List.any_eq_true]
    rcases List.mem_map.mp ht with ⟨r, hr, hid⟩
    exact ⟨r, hr, by simp [hid]⟩
  by_cases hdup : st.edges.any (fun e =>
      e.source_id = sid ∧ e.target_id = tid ∧ e.relation_type = rel) = true
  · refine ⟨st, ?_, ?_, ?_, rfl⟩
    · rw [GraphStore.connect_nodes, if_pos ⟨hanyS, hanyT⟩, hdup]
      rfl
    · rw [GraphStore.connect_nodes, if_pos ⟨hanyS, hanyT⟩, hdup]
      rfl
    · have hpos : 0 < st.edges.countP (fun e =>
          e.source_id = sid ∧ e.target_id = tid ∧ e.relation_type = rel) := by
        rw [List.countP_pos_iff]
        rcases List.any_eq_true.mp hdup with ⟨e, he, hp⟩
        exact ⟨e, he, hp⟩
      omega
  · have hzero : st.edges.countP (fun e =>
        e.source_id = sid ∧ e.target_id = tid ∧ e.relation_type = rel) = 0 := by
      rw [List.countP_eq_zero]
      intro e he
      rcases List.any_eq_false.mp (Bool.eq_false_iff.mpr hdup) e he with h
      exact h
    refine ⟨{ st with edges := st.edges ++ [⟨sid, tid, rel, n1⟩] }, ?_, ?_, ?_, rfl⟩
    · rw [GraphStore.connect_nodes, if_pos ⟨hanyS, hanyT⟩, if_neg hdup]
    · have hany2 : (st.edges ++ [⟨sid, tid, rel, n1⟩] :
          List GraphStore.Edge).any (fun e =>
            e.source_id = sid ∧ e.target_id = tid ∧ e.relation_type = rel) = true := by
        rw [List.any_eq_true]
        exact ⟨⟨sid, tid, rel, n1⟩, by simp, by simp⟩
      rw [GraphStore.connect_nodes, if_pos ⟨hanyS, hanyT⟩, hany2]
      rfl
    · rw [List.countP_append, hzero]
      simp [List.countP_cons]

/-- C6 witness: the idempotence theorem applied to a two-node edgeless
store: connecting `"A" → "B"` (relation `"related"`) twice leaves exactly
one such edge and the second call changes nothing. -/
theorem connect_nodes_idempotent_witness :
    ("A" ∈ ([⟨"A", "Concept", "a", none, "m", 1, 1⟩,
        ⟨"B", "Concept", "b", none, "m", 1, 1⟩] : List GraphStore.Node).map
          GraphStore.Node.id) ∧
    (∃ st1, GraphStore.connect_nodes
        ⟨[⟨"A", "Concept", "a", none, "m", 1, 1⟩, ⟨"B", "Concept", "b", none, "m", 1, 1⟩],
          []⟩ "A" "B" "related" 2 = .ok st1 ∧
      GraphStore.connect_nodes st1 "A" "B" "related" 3 = .ok st1 ∧
      st1.edges.countP (fun e =>
        e.source_id = "A" ∧ e.target_id = "B" ∧ e.relation_type = "related") = 1 ∧
      st1.nodes = [⟨"A", "Concept", "a", none, "m", 1, 1⟩,
        ⟨"B", "Concept", "b", none, "m", 1, 1⟩]) :=
  ⟨by decide,
    connect_nodes_idempotent
      ⟨[⟨"A", "Concept", "a", none, "m", 1, 1⟩, ⟨"B", "Concept", "b", none, "m", 1, 1⟩], []⟩
      "A" "B" "related" 2 3 (by decide) (by decide) (by decide)⟩


/-
  src/backend/db/search.py — `hybrid_search`: merge FTS and vector results
  using Reciprocal Rank Fusion.  `fts_search` and `vector_search` run SQL
  queries and are treated as oracle functions; node rows are
  `GraphStore.Node`.  Python float arithmetic is modelled exactly in ℚ, and
  Python's stable `sorted(..., reverse=True)` as a stable descending
  insertion sort.
-/

namespace Hybrid

open GraphStore (Node)

/-- Assignment `d[k] = f(d.get(k))` on a Python dict modelled as an
association list: existing keys keep their position, new keys are appended
(insertion order). -/
def upsert {β : Type} : List (String × β) → String → (Option β → β) → List (String × β)
  | [], k, f => [(k, f none)]
  | (k2, v) :: rest, k, f =>
    if k2 = k then (k2, f (some v)) :: rest else (k2, v) :: upsert rest k f

/-- One `for rank, node in enumerate(results, start=1)` loop writing both
dicts is split per dict: a generic fold over the results with the running
rank. -/
def foldUpsert {β : Type} (step : ℕ → Node → Option β → β) :
    List Node → ℕ → List (String × β) → List (String × β)
  | [], _, m => m
  | n :: rest, rank, m => foldUpsert step rest (rank + 1) (upsert m n.id (step rank n))

/-- `scores[node.id] = scores.get(node.id, 0.0) + 1.0 / (rrf_k + rank)`. -/
def scoreLoop (rrf_k : ℕ) (results : List Node) (start : ℕ)
    (scores : List (String × ℚ)) : List (String × ℚ) :=
  foldUpsert (fun rank _ o => o.getD 0 + 1 / ((rrf_k : ℚ) + rank)) results start scores

/-- `id_to_node[node.id] = node`. -/
def nodeLoop (results : List Node) (start : ℕ)
    (m : List (String × Node)) : List (String × Node) :=
  foldUpsert (fun _ n _ => n) results start m

/-- `scores[nid]` (the key is always present when used). -/
def lookupScore (scores : List (String × ℚ)) (nid : String) : ℚ :=
  (scores.lookup nid).getD 0

/-- Stable insertion into a sorted list: the new element goes before the
first list element it strictly precedes (equal elements keep their old
relative order). -/
def insertBefore (bef : String → String → Bool) (x : String) :
    List String → List String
  | [] => [x]
  | y :: ys => if bef x y then x :: y :: ys else y :: insertBefore bef x ys

/-- Stable sort by the strict precedence `bef`; models Python's stable
`sorted`. -/
def sortBefore (bef : String → String → Bool) (l : List String) : List String :=
  l.foldl (fun acc x => insertBefore bef x acc) []

/-- Fallback for `id_to_node[nid]`; never reached (every ranked id is a key
of the map — a missing key would be a Python `KeyError`). -/
def dfltNode : Node := ⟨"", "", "", none, "", 0, 0⟩

/-- The fusion body of `hybrid_search` after the two retrieval calls:
score both result lists by reciprocal rank, sort the score-dict keys by
score descending (`sorted(scores, key=..., reverse=True)` — stable, so ties
keep dict insertion order) and return the top `top_k` nodes. -/
def rrf_fuse (fts_results vec_results : List Node) (top_k rrf_k : ℕ) : List Node :=
  let scores := scoreLoop rrf_k vec_results 1 (scoreLoop rrf_k fts_results 1 [])
  let id_to_node := nodeLoop vec_results 1 (nodeLoop fts_results 1 [])
  let ranked_ids := sortBefore
    (fun a b => lookupScore scores b < lookupScore scores a) (scores.map Prod.fst)
  (ranked_ids.take top_k).map (fun nid => (id_to_node.lookup nid).getD dfltNode)

/-- `hybrid_search(conn, query, embedding, top_k, rrf_k, scope_ids)` from
search.py: fetch `top_k * 2` candidates from each index, then fuse. -/
def hybrid_search (fts_search : String → ℕ → Option (List String) → List Node)
    (vector_search : List ℚ → ℕ → Option (List String) → List Node)
    (query : String) (embedding : List ℚ) (top_k : ℕ) (rrf_k : ℕ)
    (scope_ids : Option (List String)) : List Node :=
  rrf_fuse (fts_search query (top_k * 2) scope_ids)
    (vector_search embedding (top_k * 2) scope_ids) top_k rrf_k

/- ------------------------------------------------------------------ -/
/- The specification side, from the claim's words                      -/
/- ------------------------------------------------------------------ -/

/-- The ids of a result list. -/
def ids (l : List Node) : List String := l.map Node.id

/-- 0-based position of `x` in `l` (`l.length` when absent, which orders
absent elements after all present ones). -/
def posOf : List String → String → ℕ
  | [], _ => 0
  | y :: ys, x => if y = x then 0 else 1 + posOf ys x

/-- First-occurrence de-duplication — the insertion order of the fused
node set (lexical list first, then new vector ids). -/
def dedupFirst : List String → List String
  | [] => []
  | x :: xs => x :: (dedupFirst xs).filter (fun y => y ≠ x)

/-- The RRF score of the claim: `Σ 1 / (rrf_const + rank)` over the lists
containing the node, with 1-based ranks. -/
def specScore (ftsIds vecIds : List String) (rrf_k : ℕ) (nid : String) : ℚ :=
  (if nid ∈ ftsIds then 1 / ((rrf_k : ℚ) + (posOf ftsIds nid + 1)) else 0) +
  (if nid ∈ vecIds then 1 / ((rrf_k : ℚ) + (posOf vecIds nid + 1)) else 0)

/-- The claim's ordering: score descending, ties broken by lexical rank
first (nodes absent from the lexical list rank last) and then by insertion
order into the fused set. -/
def specBefore (ftsIds unionIds : List String) (score : String → ℚ) (a b : String) : Bool :=
  decide (score b < score a ∨
    (score a = score b ∧
      (posOf ftsIds a < posOf ftsIds b ∨
        (posOf ftsIds a = posOf ftsIds b ∧ posOf unionIds a < posOf unionIds b))))

/-- The ranking described by the claim, before truncation to `top_k`. -/
def specRanking (ftsIds vecIds : List String) (rrf_k : ℕ) : List String :=
  let unionIds := dedupFirst (ftsIds ++ vecIds)
  sortBefore (specBefore ftsIds unionIds (specScore ftsIds vecIds rrf_k)) unionIds

end Hybrid

namespace Hybrid

open GraphStore (Node)

/- ------------------------------------------------------------------ -/
/- Dict lemmas                                                         -/
/- ------------------------------------------------------------------ -/

theorem lookup_cons2 {β : Type} (key k : String) (v : β) (rest : List (String × β)) :
    ((k, v) :: rest).lookup key = if key = k then some v else rest.lookup key := by
  rw [List.lookup]
  split <;> rename_i h
  · rw [if_pos (by simpa using h)]
  · rw [if_neg (by simpa using h)]

theorem upsert_keys {β : Type} (f : Option β → β) :
    ∀ (m : List (String × β)) (k : String),
      (upsert m k f).map Prod.fst =
        if k ∈ m.map Prod.fst then m.map Prod.fst else m.map Prod.fst ++ [k] := by
  intro m
  induction m with
  | nil => intro k; simp [upsert]
  | cons kv rest ih =>
    intro k
    obtain ⟨k2, v⟩ := kv
    rw [upsert]
    by_cases h : k2 = k
    · subst h
      simp
    · rw [if_neg h, List.map_cons, List.map_cons, ih k]
      by_cases hmem : k ∈ rest.map Prod.fst
      · rw [if_pos hmem, if_pos (by simp [hmem])]
      · rw [if_neg hmem, if_neg (by
          simp only [List.map_cons, List.mem_cons]
          rintro (he | he)
          · exact h he.symm
          · exact hmem he)]
        simp

theorem lookup_upsert_self {β : Type} (f : Option β → β) :
    ∀ (m : List (String × β)) (k : String),
      (upsert m k f).lookup k = some (f (m.lookup k)) := by
  intro m
  induction m with
  | nil => intro k; simp [upsert, lookup_cons2]
  | cons kv rest ih =>
    intro k
    obtain ⟨k2, v⟩ := kv
    rw [upsert]
    by_cases h : k2 = k
    · subst h
      rw [if_pos rfl, lookup_cons2, if_pos rfl, lookup_cons2, if_pos rfl]
    · rw [if_neg h, lookup_cons2, lookup_cons2,
        if_neg (fun he : k = k2 => h he.symm), if_neg (fun he : k = k2 => h he.symm), ih k]

theorem lookup_upsert_other {β : Type} (f : Option β → β) :
    ∀ (m : List (String × β)) (k k2 : String), k2 ≠ k →
      (upsert m k f).lookup k2 = m.lookup k2 := by
  intro m
  induction m with
  | nil =>
    intro k k2 h
    simp [upsert, lookup_cons2, h]
  | cons kv rest ih =>
    intro k k2 h
    obtain ⟨k3, v⟩ := kv
    rw [upsert]
    by_cases h3 : k3 = k
    · subst h3
      rw [if_pos rfl, lookup_cons2, lookup_cons2, if_neg (fun he : k2 = k3 => h he)]
      rw [if_neg (fun he : k2 = k3 => h he)]
    · rw [if_neg h3, lookup_cons2, lookup_cons2]
      by_cases he : k2 = k3
      · rw [if_pos he, if_pos he]
      · rw [if_neg he, if_neg he, ih k k2 h]

theorem mem_upsert {β : Type} (f : Option β → β) :
    ∀ (m : List (String × β)) (k : String) (kv : String × β),
      kv ∈ upsert m k f → kv ∈ m ∨ ∃ o, kv = (k, f o) := by
  intro m
  induction m with
  | nil =>
    intro k kv h
    simp [upsert] at h
    exact Or.inr ⟨none, h⟩
  | cons kv2 rest ih =>
    intro k kv h
    obtain ⟨k2, v⟩ := kv2
    rw [upsert] at h
    by_cases h2 : k2 = k
    · subst h2
      rcases List.mem_cons.mp (by simpa using h) with he | he
      · exact Or.inr ⟨some v, he⟩
      · exact Or.inl (List.mem_cons_of_mem _ he)
    · rw [if_neg h2] at h
      rcases List.mem_cons.mp h with he | he
      · exact Or.inl (by simp [he])
      · rcases ih k kv he with hm | ho
        · exact Or.inl (List.mem_cons_of_mem _ hm)
        · exact Or.inr ho

theorem lookup_mem {β : Type} :
    ∀ (m : List (String × β)) (k : String) (v : β),
      m.lookup k = some v → (k, v) ∈ m := by
  intro m
  induction m with
  | nil => intro k v h; simp at h
  | cons kv rest ih =>
    intro k v h
    obtain ⟨k2, v2⟩ := kv
    rw [lookup_cons2] at h
    by_cases he : k = k2
    · rw [if_pos he] at h
      subst he
      simp at h
      simp [h]
    · rw [if_neg he] at h
      exact List.mem_cons_of_mem _ (ih k v h)

theorem mem_keys_lookup {β : Type} :
    ∀ (m : List (String × β)) (k : String),
      k ∈ m.map Prod.fst → ∃ v, m.lookup k = some v := by
  intro m
  induction m with
  | nil => intro k h; simp at h
  | cons kv rest ih =>
    intro k h
    obtain ⟨k2, v2⟩ := kv
    rw [lookup_cons2]
    by_cases he : k = k2
    · exact ⟨v2, by rw [if_pos he]⟩
    · rw [if_neg he]
      refine ih k ?_
      rw [List.map_cons] at h
      rcases List.mem_cons.mp h with h2 | h2
      · exact absurd h2 he
      · exact h2

theorem foldUpsert_keys {β : Type} (step : ℕ → Node → Option β → β) :
    ∀ (L : List Node) (r : ℕ) (m : List (String × β)), (ids L).Nodup →
      (foldUpsert step L r m).map Prod.fst =
        m.map Prod.fst ++ (ids L).filter (fun x => x ∉ m.map Prod.fst) := by
  intro L
  induction L with
  | nil => intro r m _; simp [foldUpsert, ids]
  | cons n rest ih =>
    intro r m hnd
    have hcons : ids (n :: rest) = n.id :: ids rest := rfl
    rw [hcons] at hnd
    have hnd2 : (ids rest).Nodup := (List.nodup_cons.mp hnd).2
    have hhead : n.id ∉ ids rest := (List.nodup_cons.mp hnd).1
    rw [foldUpsert, ih _ _ hnd2, upsert_keys]
    by_cases hmem : n.id ∈ m.map Prod.fst
    · rw [if_pos hmem, hcons, List.filter_cons]
      simp [hmem]
    · rw [if_neg hmem, hcons, List.filter_cons, if_pos (by simpa using hmem)]
      rw [List.append_assoc, List.singleton_append]
      congr 2
      refine List.filter_congr ?_
      intro x hx
      have hxne : x ≠ n.id := fun he => hhead (he ▸ hx)
      simp [hxne]

theorem foldUpsert_lookup_notmem {β : Type} (step : ℕ → Node → Option β → β) :
    ∀ (L : List Node) (r : ℕ) (m : List (String × β)) (k : String), k ∉ ids L →
      (foldUpsert step L r m).lookup k = m.lookup k := by
  intro L
  induction L with
  | nil => intro r m k _; rfl
  | cons n rest ih =>
    intro r m k hk
    have h1 : k ≠ n.id := fun he => hk (by simp [ids, he])
    have h2 : k ∉ ids rest := fun he => hk (by simp [ids] at he ⊢; exact Or.inr he)
    rw [foldUpsert, ih _ _ _ h2, lookup_upsert_other _ _ _ _ h1]

end Hybrid

namespace Hybrid

open GraphStore (Node)

/- ------------------------------------------------------------------ -/
/- Rank positions                                                      -/
/- ------------------------------------------------------------------ -/

theorem posOf_eq_length {x : String} :
    ∀ {l : List String}, x ∉ l → posOf l x = l.length := by
  intro l
  induction l with
  | nil => intro _; rfl
  | cons y ys ih =>
    intro h
    rw [posOf, if_neg (fun he => h (by simp [he])), ih (fun he => h (by simp [he]))]
    simp only [List.length_cons]
    omega

theorem posOf_lt_length {x : String} :
    ∀ {l : List String}, x ∈ l → posOf l x < l.length := by
  intro l
  induction l with
  | nil => intro h; simp at h
  | cons y ys ih =>
    intro h
    rw [posOf]
    by_cases he : y = x
    · simp [he]
    · rw [if_neg he]
      have : x ∈ ys := by
        rcases List.mem_cons.mp h with h2 | h2
        · exact absurd h2.symm he
        · exact h2
      simpa [Nat.add_comm] using Nat.succ_lt_succ (ih this)

theorem posOf_append_left {x : String} :
    ∀ {A : List String} (B : List String), x ∈ A → posOf (A ++ B) x = posOf A x := by
  intro A
  induction A with
  | nil => intro B h; simp at h
  | cons y ys ih =>
    intro B h
    rw [List.cons_append, posOf, posOf]
    by_cases he : y = x
    · rw [if_pos he, if_pos he]
    · rw [if_neg he, if_neg he, ih B]
      rcases List.mem_cons.mp h with h2 | h2
      · exact absurd h2.symm he
      · exact h2

theorem posOf_append_right {x : String} :
    ∀ {A : List String} (B : List String), x ∉ A →
      posOf (A ++ B) x = A.length + posOf B x := by
  intro A
  induction A with
  | nil => intro B h; simp
  | cons y ys ih =>
    intro B h
    rw [List.cons_append, posOf, if_neg (fun he => h (by simp [he])),
      ih B (fun he => h (by simp [he]))]
    simp only [List.length_cons]
    omega

/- ------------------------------------------------------------------ -/
/- The score map                                                       -/
/- ------------------------------------------------------------------ -/

theorem scoreLoop_cons (rrf_k : ℕ) (n : Node) (rest : List Node) (r : ℕ)
    (m : List (String × ℚ)) :
    scoreLoop rrf_k (n :: rest) r m =
      scoreLoop rrf_k rest (r + 1)
        (upsert m n.id (fun o => o.getD 0 + 1 / ((rrf_k : ℚ) + r))) := rfl

theorem scoreLoop_lookup (rrf_k : ℕ) :
    ∀ (L : List Node) (r : ℕ) (m : List (String × ℚ)) (k : String), (ids L).Nodup →
      lookupScore (scoreLoop rrf_k L r m) k =
        lookupScore m k +
          (if k ∈ ids L then 1 / ((rrf_k : ℚ) + r + posOf (ids L) k) else 0) := by
  intro L
  induction L with
  | nil =>
    intro r m k _
    simp [scoreLoop, foldUpsert, ids]
  | cons n rest ih =>
    intro r m k hnd
    have hcons : ids (n :: rest) = n.id :: ids rest := rfl
    rw [hcons] at hnd
    have hnd2 : (ids rest).Nodup := (List.nodup_cons.mp hnd).2
    have hhead : n.id ∉ ids rest := (List.nodup_cons.mp hnd).1
    rw [scoreLoop_cons]
    by_cases hk : k = n.id
    · subst hk
      have hnotmem : n.id ∉ ids rest := hhead
      rw [show scoreLoop rrf_k rest (r + 1)
          (upsert m n.id (fun o => o.getD 0 + 1 / ((rrf_k : ℚ) + r))) =
          foldUpsert (fun rank _ o => o.getD 0 + 1 / ((rrf_k : ℚ) + rank)) rest (r + 1)
            (upsert m n.id (fun o => o.getD 0 + 1 / ((rrf_k : ℚ) + r))) from rfl]
      rw [lookupScore, foldUpsert_lookup_notmem _ _ _ _ _ hnotmem,
        lookup_upsert_self, Option.getD_some]
      rw [hcons, if_pos (by simp)]
      rw [posOf, if_pos rfl]
      rw [show (m.lookup n.id).getD 0 + 1 / ((rrf_k : ℚ) + r) =
        lookupScore m n.id + 1 / ((rrf_k : ℚ) + r) from rfl]
      push_cast
      ring_nf
    · rw [ih (r + 1) _ k hnd2]
      have hother : lookupScore
          (upsert m n.id (fun o => o.getD 0 + 1 / ((rrf_k : ℚ) + r))) k =
          lookupScore m k := by
        rw [lookupScore, lookupScore, lookup_upsert_other _ _ _ _ hk]
      rw [hother, hcons]
      by_cases hmem : k ∈ ids rest
      · rw [if_pos hmem, if_pos (by simp [hmem])]
        rw [posOf, if_neg (fun he => hk he.symm)]
        push_cast
        ring_nf
      · rw [if_neg hmem, if_neg (by
          intro h
          rcases List.mem_cons.mp h with h2 | h2
          · exact hk h2
          · exact hmem h2)]

/- ------------------------------------------------------------------ -/
/- First-occurrence de-duplication                                     -/
/- ------------------------------------------------------------------ -/

theorem dedupFirst_nodup_self : ∀ {l : List String}, l.Nodup → dedupFirst l = l := by
  intro l
  induction l with
  | nil => intro _; rfl
  | cons x xs ih =>
    intro h
    rw [dedupFirst, ih (List.nodup_cons.mp h).2]
    have : ∀ y ∈ xs, y ≠ x := fun y hy he => (List.nodup_cons.mp h).1 (he ▸ hy)
    rw [List.filter_eq_self.mpr (fun y hy => by simpa using this y hy)]

theorem dedupFirst_append :
    ∀ {A : List String} (B : List String), A.Nodup →
      dedupFirst (A ++ B) = A ++ (dedupFirst B).filter (fun x => x ∉ A) := by
  intro A
  induction A with
  | nil =>
    intro B _
    rw [List.nil_append, List.nil_append]
    rw [List.filter_eq_self.mpr (fun y _ => by simp)]
  | cons a A2 ih =>
    intro B h
    rw [List.cons_append, dedupFirst, ih B (List.nodup_cons.mp h).2,
      List.filter_append]
    have h1 : A2.filter (fun y => y ≠ a) = A2 := by
      refine List.filter_eq_self.mpr ?_
      intro y hy
      have hya : y ≠ a := fun he => (List.nodup_cons.mp h).1 (he ▸ hy)
      simpa using hya
    have h2 : ((dedupFirst B).filter (fun x => x ∉ A2)).filter (fun y => y ≠ a) =
        (dedupFirst B).filter (fun x => x ∉ a :: A2) := by
      rw [List.filter_filter]
      refine List.filter_congr ?_
      intro x _
      by_cases hx : x = a <;> by_cases hx2 : x ∈ A2 <;> simp [hx, hx2]
    rw [h1, h2, List.cons_append]

/- ------------------------------------------------------------------ -/
/- The id-to-node map                                                  -/
/- ------------------------------------------------------------------ -/

theorem nodeLoop_cons (n : Node) (rest : List Node) (r : ℕ) (m : List (String × Node)) :
    nodeLoop (n :: rest) r m = nodeLoop rest (r + 1) (upsert m n.id (fun _ => n)) := rfl

theorem nodeLoop_id_inv :
    ∀ (L : List Node) (r : ℕ) (m : List (String × Node)),
      (∀ kv ∈ m, (kv.2 : Node).id = kv.1) →
      ∀ kv ∈ nodeLoop L r m, kv.2.id = kv.1 := by
  intro L
  induction L with
  | nil => intro r m hm kv hkv; exact hm kv hkv
  | cons n rest ih =>
    intro r m hm kv hkv
    rw [nodeLoop_cons] at hkv
    refine ih (r + 1) _ ?_ kv hkv
    intro kv2 hkv2
    rcases mem_upsert _ _ _ _ hkv2 with h | ⟨o, ho⟩
    · exact hm kv2 h
    · rw [ho]

theorem resolve_id {m : List (String × Node)} {nid : String}
    (hinv : ∀ kv ∈ m, (kv.2 : Node).id = kv.1)
    (hmem : nid ∈ m.map Prod.fst) :
    ((m.lookup nid).getD dfltNode).id = nid := by
  obtain ⟨v, hv⟩ := mem_keys_lookup m nid hmem
  rw [hv]
  exact hinv (nid, v) (lookup_mem m nid v hv)

end Hybrid

namespace Hybrid

open GraphStore (Node)

/- ------------------------------------------------------------------ -/
/- Stable sorting                                                      -/
/- ------------------------------------------------------------------ -/

theorem insertBefore_perm (bef : String → String → Bool) (x : String) :
    ∀ acc : List String, (insertBefore bef x acc).Perm (x :: acc) := by
  intro acc
  induction acc with
  | nil => exact List.Perm.refl _
  | cons y ys ih =>
    rw [insertBefore]
    by_cases hb : bef x y
    · rw [if_pos hb]
    · rw [if_neg hb]
      exact (ih.cons y).trans (List.Perm.swap x y ys)

theorem sortFold_perm (bef : String → String → Bool) :
    ∀ (l acc : List String),
      (l.foldl (fun acc x => insertBefore bef x acc) acc).Perm (acc ++ l) := by
  intro l
  induction l with
  | nil => intro acc; simp
  | cons z rest ih =>
    intro acc
    rw [List.foldl_cons]
    refine (ih (insertBefore bef z acc)).trans ?_
    refine (List.Perm.append_right rest (insertBefore_perm bef z acc)).trans ?_
    exact List.perm_middle.symm

theorem sortBefore_perm (bef : String → String → Bool) (l : List String) :
    (sortBefore bef l).Perm l := by
  simpa using sortFold_perm bef l []

theorem insertBefore_congr (bef1 bef2 : String → String → Bool) (x : String) :
    ∀ acc : List String, (∀ y ∈ acc, bef1 x y = bef2 x y) →
      insertBefore bef1 x acc = insertBefore bef2 x acc := by
  intro acc
  induction acc with
  | nil => intro _; rfl
  | cons y ys ih =>
    intro h
    rw [insertBefore, insertBefore, h y (by simp)]
    split
    · rfl
    · exact congrArg (y :: ·) (ih (fun y2 hy2 => h y2 (List.mem_cons_of_mem _ hy2)))

theorem sortFold_eq (bef1 bef2 : String → String → Bool) :
    ∀ (l acc : List String),
      (∀ x ∈ l, ∀ y ∈ acc, bef1 x y = bef2 x y) →
      l.Pairwise (fun y x => bef1 x y = bef2 x y) →
      l.foldl (fun acc x => insertBefore bef1 x acc) acc =
        l.foldl (fun acc x => insertBefore bef2 x acc) acc := by
  intro l
  induction l with
  | nil => intro acc _ _; rfl
  | cons z rest ih =>
    intro acc hacc hp
    rw [List.foldl_cons, List.foldl_cons,
      insertBefore_congr bef1 bef2 z acc (hacc z (by simp))]
    refine ih (insertBefore bef2 z acc) ?_ (List.pairwise_cons.mp hp).2
    intro x hx y hy
    have hy2 : y = z ∨ y ∈ acc := by
      have := (insertBefore_perm bef2 z acc).mem_iff.mp hy
      simpa using this
    rcases hy2 with he | he
    · subst he
      exact (List.pairwise_cons.mp hp).1 x hx
    · exact hacc x (List.mem_cons_of_mem _ hx) y he

theorem sortBefore_eq (bef1 bef2 : String → String → Bool) (l : List String)
    (hp : l.Pairwise (fun y x => bef1 x y = bef2 x y)) :
    sortBefore bef1 l = sortBefore bef2 l :=
  sortFold_eq bef1 bef2 l [] (fun _ _ y hy => absurd hy (List.not_mem_nil y)) hp

/- ------------------------------------------------------------------ -/
/- Pairwise facts about the fused key list                             -/
/- ------------------------------------------------------------------ -/

theorem posOf_pairwise :
    ∀ (l : List String), l.Nodup → l.Pairwise (fun a b => posOf l a < posOf l b) := by
  intro l
  induction l with
  | nil => exact fun _ => List.Pairwise.nil
  | cons x xs ih =>
    intro h
    rw [List.pairwise_cons]
    constructor
    · intro b hb
      have hbx : ¬ x = b := fun he => (List.nodup_cons.mp h).1 (he ▸ hb)
      rw [posOf, if_pos rfl, posOf, if_neg hbx]
      omega
    · refine ((ih (List.nodup_cons.mp h).2).imp_of_mem ?_)
      intro a b ha hb hlt
      have hxa : ¬ x = a := fun he => (List.nodup_cons.mp h).1 (he ▸ ha)
      have hxb : ¬ x = b := fun he => (List.nodup_cons.mp h).1 (he ▸ hb)
      rw [posOf, if_neg hxa, posOf, if_neg hxb]
      omega

/-- On the fused key list `F ++ (V-only ids)`, an earlier key never has a
worse (larger) lexical rank, and always has a smaller insertion position. -/
theorem keys_pairwise_tie {F T : List String} (hF : F.Nodup) (hT : T.Nodup)
    (hTF : ∀ x ∈ T, x ∉ F) (hU : (F ++ T).Nodup) :
    (F ++ T).Pairwise (fun y x =>
      posOf F y ≤ posOf F x ∧ posOf (F ++ T) y < posOf (F ++ T) x) := by
  have hpos : (F ++ T).Pairwise (fun y x => posOf (F ++ T) y < posOf (F ++ T) x) :=
    posOf_pairwise _ hU
  have hlex : (F ++ T).Pairwise (fun y x => posOf F y ≤ posOf F x) := by
    rw [List.pairwise_append]
    refine ⟨?_, ?_, ?_⟩
    · exact (posOf_pairwise F hF).imp (fun h => le_of_lt h)
    · refine ((posOf_pairwise T hT).imp_of_mem ?_)
      intro a b ha hb _
      rw [posOf_eq_length (hTF a ha), posOf_eq_length (hTF b hb)]
    · intro a ha b hb
      rw [posOf_eq_length (hTF b hb)]
      exact le_of_lt (posOf_lt_length ha)
  exact hlex.and hpos

end Hybrid

namespace Hybrid

open GraphStore (Node)

theorem filter_not_mem_nil (L : List String) :
    L.filter (fun x => x ∉ ([] : List String)) = L :=
  List.filter_eq_self.mpr (fun a _ => by simp)

/-- The insertion order of the score dict after both loops: lexical ids
first, then the vector-only ids. -/
theorem scoreLoop_keys_FV {F V : List Node} (rrf_k : ℕ)
    (hF : (ids F).Nodup) (hV : (ids V).Nodup) :
    (scoreLoop rrf_k V 1 (scoreLoop rrf_k F 1 [])).map Prod.fst =
      ids F ++ (ids V).filter (fun x => x ∉ ids F) := by
  have h1 : (scoreLoop rrf_k F 1 ([] : List (String × ℚ))).map Prod.fst = ids F := by
    rw [scoreLoop, foldUpsert_keys _ _ _ _ hF]
    simp only [List.map_nil, List.nil_append]
    exact List.filter_eq_self.mpr (fun a _ => by simp)
  rw [show scoreLoop rrf_k V 1 (scoreLoop rrf_k F 1 []) =
      foldUpsert (fun rank _ o => o.getD 0 + 1 / ((rrf_k : ℚ) + rank)) V 1
        (scoreLoop rrf_k F 1 []) from rfl,
    foldUpsert_keys _ _ _ _ hV, h1]

theorem nodeLoop_keys_FV {F V : List Node}
    (hF : (ids F).Nodup) (hV : (ids V).Nodup) :
    (nodeLoop V 1 (nodeLoop F 1 [])).map Prod.fst =
      ids F ++ (ids V).filter (fun x => x ∉ ids F) := by
  have h1 : (nodeLoop F 1 ([] : List (String × Node))).map Prod.fst = ids F := by
    rw [nodeLoop, foldUpsert_keys _ _ _ _ hF]
    simp only [List.map_nil, List.nil_append]
    exact List.filter_eq_self.mpr (fun a _ => by simp)
  rw [show nodeLoop V 1 (nodeLoop F 1 []) =
      foldUpsert (fun _ n _ => n) V 1 (nodeLoop F 1 []) from rfl,
    foldUpsert_keys _ _ _ _ hV, h1]

/-- The score dict realises the claim's RRF score formula. -/
theorem scores_eq_specScore {F V : List Node} (rrf_k : ℕ)
    (hF : (ids F).Nodup) (hV : (ids V).Nodup) (nid : String) :
    lookupScore (scoreLoop rrf_k V 1 (scoreLoop rrf_k F 1 [])) nid =
      specScore (ids F) (ids V) rrf_k nid := by
  rw [scoreLoop_lookup rrf_k V 1 _ nid hV, scoreLoop_lookup rrf_k F 1 [] nid hF]
  have h0 : lookupScore ([] : List (String × ℚ)) nid = 0 := rfl
  rw [h0, specScore]
  have harith : ∀ (L : List String), nid ∈ L →
      (1 : ℚ) / ((rrf_k : ℚ) + 1 + (posOf L nid : ℚ)) =
        1 / ((rrf_k : ℚ) + ((posOf L nid : ℚ) + 1)) := by
    intro L _
    ring_nf
  by_cases hf : nid ∈ ids F <;> by_cases hv : nid ∈ ids V <;>
    simp only [hf, hv, if_true, if_false, zero_add, add_zero] <;>
    push_cast <;> ring_nf

/-- Core correctness of the fusion body: the returned ids realise the
claim's ranking, are duplicate-free and drawn from the union of the two
result lists. -/
theorem rrf_fuse_spec (F V : List Node) (top_k rrf_k : ℕ)
    (hF : (ids F).Nodup) (hV : (ids V).Nodup) :
    ids (rrf_fuse F V top_k rrf_k) =
      (specRanking (ids F) (ids V) rrf_k).take top_k ∧
    (ids (rrf_fuse F V top_k rrf_k)).Nodup ∧
    (∀ nid ∈ ids (rrf_fuse F V top_k rrf_k), nid ∈ ids F ++ ids V) := by
  have hT : ((ids V).filter (fun x => x ∉ ids F)).Nodup := hV.filter _
  have hTF : ∀ x ∈ (ids V).filter (fun x => x ∉ ids F), x ∉ ids F := by
    intro x hx
    have := List.of_mem_filter hx
    simpa using this
  have hU : (ids F ++ (ids V).filter (fun x => x ∉ ids F)).Nodup := by
    rw [List.nodup_append]
    exact ⟨hF, hT, fun a ha hb => hTF a hb ha⟩
  have hUeq : dedupFirst (ids F ++ ids V) =
      ids F ++ (ids V).filter (fun x => x ∉ ids F) := by
    rw [dedupFirst_append (ids V) hF, dedupFirst_nodup_self hV]
  have hkeys := scoreLoop_keys_FV (F := F) (V := V) rrf_k hF hV
  have hnkeys := nodeLoop_keys_FV (F := F) (V := V) hF hV
  have hscore := scores_eq_specScore (F := F) (V := V) rrf_k hF hV
  -- the two Bool precedence tests agree on the fused key list
  have hpair : (ids F ++ (ids V).filter (fun x => x ∉ ids F)).Pairwise
      (fun y x =>
        (decide (lookupScore (scoreLoop rrf_k V 1 (scoreLoop rrf_k F 1 [])) y <
          lookupScore (scoreLoop rrf_k V 1 (scoreLoop rrf_k F 1 [])) x)) =
        specBefore (ids F) (dedupFirst (ids F ++ ids V))
          (specScore (ids F) (ids V) rrf_k) x y) := by
    refine (keys_pairwise_tie hF hT hTF hU).imp_of_mem ?_
    intro y x _ _ hq
    obtain ⟨hlex, hpos⟩ := hq
    rw [specBefore]
    rw [show decide (lookupScore (scoreLoop rrf_k V 1 (scoreLoop rrf_k F 1 [])) y <
        lookupScore (scoreLoop rrf_k V 1 (scoreLoop rrf_k F 1 [])) x) =
      decide (specScore (ids F) (ids V) rrf_k y < specScore (ids F) (ids V) rrf_k x) from by
        rw [hscore x, hscore y]]
    rw [decide_eq_decide]
    rw [hUeq]
    constructor
    · exact fun h => Or.inl h
    · rintro (h | ⟨heq, hlt | ⟨hle, hp⟩⟩)
      · exact h
      · exact absurd hlt (by omega)
      · exact absurd hp (by omega)
  have hsorteq : sortBefore
      (fun a b => lookupScore (scoreLoop rrf_k V 1 (scoreLoop rrf_k F 1 [])) b <
        lookupScore (scoreLoop rrf_k V 1 (scoreLoop rrf_k F 1 [])) a)
      ((scoreLoop rrf_k V 1 (scoreLoop rrf_k F 1 [])).map Prod.fst) =
      specRanking (ids F) (ids V) rrf_k := by
    rw [← hUeq] at hpair
    rw [hkeys, ← hUeq]
    exact (sortBefore_eq _ _ _ hpair).trans rfl
  have hinv : ∀ kv ∈ nodeLoop V 1 (nodeLoop F 1 []), (kv.2 : Node).id = kv.1 := by
    refine nodeLoop_id_inv V 1 _ ?_
    refine nodeLoop_id_inv F 1 [] ?_
    intro kv hkv
    simp at hkv
  have hresolve : ∀ nid ∈ (specRanking (ids F) (ids V) rrf_k).take top_k,
      (((nodeLoop V 1 (nodeLoop F 1 [])).lookup nid).getD dfltNode).id = nid := by
    intro nid hnid
    have h1 : nid ∈ specRanking (ids F) (ids V) rrf_k :=
      List.mem_of_mem_take hnid
    have h2 : nid ∈ dedupFirst (ids F ++ ids V) := by
      rw [specRanking] at h1
      exact (sortBefore_perm _ _).mem_iff.mp h1
    rw [hUeq] at h2
    exact resolve_id hinv (by rw [hnkeys]; exact h2)
  have hids : ids (rrf_fuse F V top_k rrf_k) =
      (specRanking (ids F) (ids V) rrf_k).take top_k := by
    rw [rrf_fuse, ids, hsorteq, List.map_map]
    refine ((List.map_congr_left ?_).trans (List.map_id _))
    intro nid hnid
    exact hresolve nid hnid
  refine ⟨hids, ?_, ?_⟩
  · rw [hids]
    have hnd : (specRanking (ids F) (ids V) rrf_k).Nodup := by
      rw [specRanking, hUeq]
      exact ((sortBefore_perm _ _).nodup_iff).mpr hU
    exact hnd.sublist (List.take_sublist top_k _)
  · intro nid hnid
    rw [hids] at hnid
    have h1 : nid ∈ specRanking (ids F) (ids V) rrf_k := List.mem_of_mem_take hnid
    have h2 : nid ∈ ids F ++ (ids V).filter (fun x => x ∉ ids F) := by
      rw [specRanking] at h1
      have := (sortBefore_perm _ _).mem_iff.mp h1
      rwa [hUeq] at this
    rcases List.mem_append.mp h2 with h3 | h3
    · exact List.mem_append_left _ h3
    · exact List.mem_append_right _ (List.mem_of_mem_filter h3)

end Hybrid

/-- C1: for every query, embedding, `top_k` and optional scope,
`hybrid_search` returns exactly the Reciprocal Rank Fusion of
`fts_search(query, 2k, S)` and `vector_search(embedding, 2k, S)`: the score
dict assigns each node appearing in either list
`Σ 1 / (rrf_const + rank)` over the lists containing it (1-based ranks),
the top `top_k` ids are returned by score descending with ties broken by
lexical rank first and then insertion order, and the returned ids contain
no duplicates and are a subset of the union of the two input lists' ids.
Stated under the invariant that each retrieval returns distinct rows. -/
theorem hybrid_search_rrf_fusion
    (fts_search : String → ℕ → Option (List String) → List GraphStore.Node)
    (vector_search : List ℚ → ℕ → Option (List String) → List GraphStore.Node)
    (query : String) (embedding : List ℚ) (top_k rrf_k : ℕ)
    (scope_ids : Option (List String))
    (hF : (Hybrid.ids (fts_search query (top_k * 2) scope_ids)).Nodup)
    (hV : (Hybrid.ids (vector_search embedding (top_k * 2) scope_ids)).Nodup) :
    (Hybrid.ids (Hybrid.hybrid_search fts_search vector_search query embedding
        top_k rrf_k scope_ids) =
      (Hybrid.specRanking (Hybrid.ids (fts_search query (top_k * 2) scope_ids))
        (Hybrid.ids (vector_search embedding (top_k * 2) scope_ids)) rrf_k).take top_k) ∧
    (∀ nid, Hybrid.lookupScore
        (Hybrid.scoreLoop rrf_k (vector_search embedding (top_k * 2) scope_ids) 1
          (Hybrid.scoreLoop rrf_k (fts_search query (top_k * 2) scope_ids) 1 [])) nid =
      Hybrid.specScore (Hybrid.ids (fts_search query (top_k * 2) scope_ids))
        (Hybrid.ids (vector_search embedding (top_k * 2) scope_ids)) rrf_k nid) ∧
    (Hybrid.ids (Hybrid.hybrid_search fts_search vector_search query embedding
        top_k rrf_k scope_ids)).Nodup ∧
    (∀ nid ∈ Hybrid.ids (Hybrid.hybrid_search fts_search vector_search query embedding
        top_k rrf_k scope_ids),
      nid ∈ Hybrid.ids (fts_search query (top_k * 2) scope_ids) ++
        Hybrid.ids (vector_search embedding (top_k * 2) scope_ids)) := by
  obtain ⟨h1, h2, h3⟩ := Hybrid.rrf_fuse_spec (fts_search query (top_k * 2) scope_ids)
    (vector_search embedding (top_k * 2) scope_ids) top_k rrf_k hF hV
  exact ⟨h1, Hybrid.scores_eq_specScore rrf_k hF hV, h2, h3⟩

/-- C1 witness: the fusion theorem applied to concrete oracles where the
lexical list is `[a, c]` and the vector list is `[b, c]` with `rrf_const
= 60` and `top_k = 5`: both retrievals return distinct rows, and the
hybrid output is exactly the truncated specification ranking. -/
theorem hybrid_search_rrf_fusion_witness :
    (Hybrid.ids ((fun _ _ _ => [⟨"a", "t", "a", none, "m", 0, 0⟩,
        ⟨"c", "t", "c", none, "m", 0, 0⟩] : String → ℕ → Option (List String) →
          List GraphStore.Node) "q" (5 * 2) none)).Nodup ∧
    (Hybrid.ids ((fun _ _ _ => [⟨"b", "t", "b", none, "m", 0, 0⟩,
        ⟨"c", "t", "c", none, "m", 0, 0⟩] : List ℚ → ℕ → Option (List String) →
          List GraphStore.Node) [] (5 * 2) none)).Nodup ∧
    Hybrid.ids (Hybrid.hybrid_search
      (fun _ _ _ => [⟨"a", "t", "a", none, "m", 0, 0⟩, ⟨"c", "t", "c", none, "m", 0, 0⟩])
      (fun _ _ _ => [⟨"b", "t", "b", none, "m", 0, 0⟩, ⟨"c", "t", "c", none, "m", 0, 0⟩])
      "q" [] 5 60 none) =
      (Hybrid.specRanking ["a", "c"] ["b", "c"] 60).take 5 :=
  ⟨by decide, by decide,
    (hybrid_search_rrf_fusion
      (fun _ _ _ => [⟨"a", "t", "a", none, "m", 0, 0⟩, ⟨"c", "t", "c", none, "m", 0, 0⟩])
      (fun _ _ _ => [⟨"b", "t", "b", none, "m", 0, 0⟩, ⟨"c", "t", "c", none, "m", 0, 0⟩])
      "q" [] 5 60 none (by decide) (by decide)).1⟩
